import Mathlib

/-!
# remap_regions_register: the regions register

A shallow embedding of `remap::regions_register::RegionsRegister`
(`regions_register.hpp`, `regions_register.cpp`) and the properties of its
area/ID bookkeeping.

Modelling conventions.

* A region label is a `std::string`. The register only ever compares labels
  with `==` and `<`, so the label type is any linearly ordered type `L`.
  Concrete scenarios use character lists (`"abc".toList`), ordered
  lexicographically as `std::string` is.
* An area is a `std::vector<std::string>`: a `List L`, compared element by
  element (`std::vector::operator<` is the lexicographic order, which is the
  order of `List L`).
* A `std::map<K, V>` is the list of its entries in iteration order, that is in
  strictly ascending key order (`StdMap.Ordered`). The operations below are the
  ones of `std::map` on such a list.
* `int` is `Int`: the identifiers and the counter are far from the bounds of a
  machine integer, and signed overflow has no defined result in C++.
* A `std::unordered_set` is the list of its elements, without repetition; only
  membership in it is used.
* The mutex and locking are left out: every member function runs to completion
  under the lock, so a call is one atomic transition.
-/

namespace Remap

/-! ## `std::map` as an ascending entry list -/

namespace StdMap

variable {K V : Type}

/-- Representation invariant of `std::map`: keys strictly ascending. -/
def Ordered [LinearOrder K] (m : List (K × V)) : Prop :=
  (m.map Prod.fst).Sorted (· < ·)

instance instDecidableOrdered [LinearOrder K] (m : List (K × V)) : Decidable (Ordered m) := by
  unfold Ordered; infer_instance

/-- Lookup `std::map::find`: the value stored under the key, if any. -/
def find [LinearOrder K] (k : K) : List (K × V) → Option V
  | [] => none
  | e :: m => if e.1 = k then some e.2 else find k m

/-- Assignment `m[k] = v`: create the entry at its place in key order, or overwrite it. -/
def assign [LinearOrder K] (k : K) (v : V) : List (K × V) → List (K × V)
  | [] => [(k, v)]
  | e :: m =>
    if k < e.1 then (k, v) :: e :: m
    else if k = e.1 then (k, v) :: m
    else e :: assign k v m

/-- Insertion `std::map::insert`: create the entry unless the key is already present. -/
def insert [LinearOrder K] (k : K) (v : V) (m : List (K × V)) : List (K × V) :=
  match find k m with
  | some _ => m
  | none => assign k v m

/-- Erasure `std::map::erase(key)`: every entry with that key goes. -/
def erase [LinearOrder K] (k : K) (m : List (K × V)) : List (K × V) :=
  m.filter (fun e => e.1 ≠ k)

end StdMap

/-! ## The register -/

/-- Data members of `RegionsRegister` (the mutex apart). -/
structure RegionsRegister (L : Type) where
  threaded_ : Bool
  areas_ : List (List L × Int)
  lookup_areas_ : List (Int × List L)
  entities_types_ : List (L × String)
  id_ : Int

/-- Locals of `removeRegion` that its scan over `areas_` updates, together with
`lookup_areas_`, which the scan erases from. -/
structure RemoveScan (L : Type) where
  areas_to_remove : List (List L)
  areas_to_add : List (List L × Int)
  ids_to_update : List (Int × Int)
  lookup_areas_ : List (Int × List L)
  standalone_reg_removed : Bool

namespace RegionsRegister

variable {L : Type} [LinearOrder L]

/-- Constructor: `threaded_(threaded), id_(-1)`, the maps empty. -/
def new (threaded : Bool) : RegionsRegister L :=
  { threaded_ := threaded, areas_ := [], lookup_areas_ := [], entities_types_ := [], id_ := -1 }

/-- The `while` loop of `addArea`, from the iterator position `lookup_it`
(the head of the list) on: the first key whose successor key is not the next
integer gives the ID; past the last entry the ID is the last key plus one. -/
def scanForGap {V : Type} : List (Int × V) → Int
  | [] => 0
  | [e] => e.1 + 1
  | e :: e' :: rest => if e.1 + 1 ≠ e'.1 then e.1 + 1 else scanForGap (e' :: rest)

/-- The ID that `addArea` picks from `lookup_areas_`. -/
def selectId {V : Type} (lookup : List (Int × V)) : Int :=
  match lookup with
  | [] => 0
  | e :: _ => if e.1 ≠ 0 then 0 else scanForGap lookup

/-- Member function `int addArea(const std::vector<std::string> & regs)`. -/
def addArea (s : RegionsRegister L) (regs : List L) : RegionsRegister L × Int :=
  let id := selectId s.lookup_areas_
  ({ s with
      id_ := s.id_ + 1
      areas_ := StdMap.assign regs id s.areas_
      lookup_areas_ := StdMap.assign id regs s.lookup_areas_ }, id)

/-- Member function `int findRegions(const std::vector<std::string> & regs) const`, on the
map `areas_`. -/
def findRegionsIn (areas : List (List L × Int)) (regs : List L) : Int :=
  match StdMap.find regs areas with
  | none => -1
  | some id => id

/-- Member function `findRegions` on a register. -/
def findRegions (s : RegionsRegister L) (regs : List L) : Int :=
  findRegionsIn s.areas_ regs

/-- Member function `std::vector<std::string> findRegionsById(const int & id) const`: the key of
the first entry of `areas_`, in iteration order, whose value is `id`. -/
def findRegionsById (s : RegionsRegister L) (id : Int) : List L :=
  match s.areas_.find? (fun elem => elem.2 = id) with
  | some elem => elem.1
  | none => []

/-- Body of the scan loop of `removeRegion` for one entry `area` of `areas_`.
`areas` is the member `areas_`, which the scan does not modify. -/
def removeRegionVisit (areas : List (List L × Int)) (reg : L)
    (st : RemoveScan L) (area : List L × Int) : RemoveScan L :=
  if reg ∈ area.1 then
    let st1 := { st with areas_to_remove := st.areas_to_remove ++ [area.1] }
    let regs := area.1.erase reg
    if regs.length = 0 then
      if st1.standalone_reg_removed = false then
        match StdMap.find [reg] areas with
        | some id_to_remove =>
          { st1 with
              lookup_areas_ := StdMap.erase id_to_remove st1.lookup_areas_
              standalone_reg_removed := true }
        | none => st1
      else st1
    else
      let old_id := area.2
      let new_id := findRegionsIn areas regs
      if new_id = -1 then
        { st1 with areas_to_add := StdMap.insert regs old_id st1.areas_to_add }
      else
        { st1 with
            ids_to_update := StdMap.insert old_id new_id st1.ids_to_update
            lookup_areas_ := StdMap.erase old_id st1.lookup_areas_ }
  else st

/-- Residual of an area: the area without the label, as the scan computes it
with `regs.erase(reg_elem)` (the first occurrence of the label is erased). -/
abbrev residual (regs : List L) (reg : L) : List L := regs.erase reg

/-- The scan loop of `removeRegion` over the entries of `areas_`. -/
def removeRegionScan (s : RegionsRegister L) (reg : L) : RemoveScan L :=
  s.areas_.foldl (removeRegionVisit s.areas_ reg)
    { areas_to_remove := [], areas_to_add := [], ids_to_update := [],
      lookup_areas_ := s.lookup_areas_, standalone_reg_removed := false }

/-- Member function `std::map<int, int> removeRegion(const std::string & reg)`: the scan, then
the erasure of `areas_to_remove`, then the insertion of `areas_to_add`. -/
def removeRegion (s : RegionsRegister L) (reg : L) : RegionsRegister L × List (Int × Int) :=
  let scan := removeRegionScan s reg
  let erased := scan.areas_to_remove.foldl (fun m area => StdMap.erase area m) s.areas_
  let added := scan.areas_to_add.foldl (fun m area => StdMap.insert area.1 area.2 m) erased
  ({ s with areas_ := added, lookup_areas_ := scan.lookup_areas_ }, scan.ids_to_update)

/-- Member function `void clear()`: `areas_.clear(); id_ = -1;`. -/
def clear (s : RegionsRegister L) : RegionsRegister L :=
  { s with areas_ := [], id_ := -1 }

/-- Member function `int getRegionsNumber() const`: `areas_.size()`. -/
def getRegionsNumber (s : RegionsRegister L) : Int := s.areas_.length

/-- Member function `int getId() const`: the counter `id_`. -/
def getId (s : RegionsRegister L) : Int := s.id_

/-- Member function `std::map<std::vector<std::string>, int> getAreas() const`. -/
def getAreas (s : RegionsRegister L) : List (List L × Int) := s.areas_

/-- Member function `std::vector<int> getEntityIds(const std::string & entity) const`. -/
def getEntityIds (s : RegionsRegister L) (entity : L) : List Int :=
  s.areas_.foldl (fun ids area => if entity ∈ area.1 then ids ++ [area.2] else ids) []

/-- Member function `std::vector<std::string> getInstances() const`. -/
def getInstances (s : RegionsRegister L) : List L :=
  s.areas_.foldl
    (fun instances area =>
      area.1.foldl
        (fun acc instance_ => if instance_ ∈ acc then acc else acc ++ [instance_]) instances)
    []

/-- Member function `std::vector<std::vector<std::string>> getEntries() const`. -/
def getEntries (s : RegionsRegister L) : List (List L) :=
  s.areas_.foldl (fun entries area => entries ++ [area.1]) []

/-- Member function `void addEntityType(const std::string & entity, const std::string & type)`. -/
def addEntityType (s : RegionsRegister L) (entity : L) (type : String) : RegionsRegister L :=
  { s with entities_types_ := StdMap.assign entity type s.entities_types_ }

/-- Member function `std::string getEntityType(const std::string & entity)`. -/
def getEntityType (s : RegionsRegister L) (entity : L) : String :=
  match StdMap.find entity s.entities_types_ with
  | some type => type
  | none => ""

/-- Member function
`std::unordered_set<std::string> getCoexistentEntities(const std::string & entity)`.
The `std::unordered_set` is the list of its elements without repetition:
`insert` appends an element that is not there yet, `erase` removes the element.
(The iteration order of the set is unspecified; only membership is used.) -/
def getCoexistentEntities (s : RegionsRegister L) (entity : L) : List L :=
  (s.areas_.foldl
    (fun coexisting region =>
      if entity ∈ region.1 then
        region.1.foldl
          (fun acc coexisting_entity =>
            if coexisting_entity ∈ acc then acc else acc ++ [coexisting_entity]) coexisting
      else coexisting)
    []).filter (fun x => x ≠ entity)

end RegionsRegister

/-! ## Call sequences -/

/-- A call of a state-changing member function. -/
inductive Call (L : Type) where
  | addArea (regs : List L)
  | removeRegion (reg : L)
  | clear
  | addEntityType (entity : L) (type : String)

namespace RegionsRegister

variable {L : Type} [LinearOrder L]

/-- State after one call. -/
def perform (s : RegionsRegister L) : Call L → RegionsRegister L
  | .addArea regs => (s.addArea regs).1
  | .removeRegion reg => (s.removeRegion reg).1
  | .clear => s.clear
  | .addEntityType entity type => s.addEntityType entity type

/-- State after a sequence of calls, in order. -/
def run (s : RegionsRegister L) (calls : List (Call L)) : RegionsRegister L :=
  calls.foldl perform s

/-- States a register can be in: a freshly constructed one, and the state after
any call on such a state. -/
inductive Reachable : RegionsRegister L → Prop
  | fresh (threaded : Bool) : Reachable (new threaded)
  | call {s : RegionsRegister L} (c : Call L) : Reachable s → Reachable (s.perform c)

/-- The areas of the map are strictly ascending label lists (hence
duplicate-free). -/
def AreasAscending (s : RegionsRegister L) : Prop :=
  ∀ area ∈ s.areas_, area.1.Sorted (· < ·)

/-- A well-formed argument of `addArea`: a non-empty, strictly ascending (hence
duplicate-free) label list that is not a live area. -/
def WellFormedArg (s : RegionsRegister L) (regs : List L) : Prop :=
  regs ≠ [] ∧ regs.Sorted (· < ·) ∧ StdMap.find regs s.areas_ = none

/-- The IDs of the live areas: the values of `areas_`. -/
def liveIds (s : RegionsRegister L) : List Int := s.areas_.map Prod.snd

end RegionsRegister

/-! ## Facts used in the proofs, and the scenarios of the tests -/

namespace RegionsRegister

variable {L : Type} [LinearOrder L]

/-- Facts that hold in every reachable state. -/
structure Consistent (s : RegionsRegister L) : Prop where
  areas_ordered : StdMap.Ordered s.areas_
  lookup_ordered : StdMap.Ordered s.lookup_areas_
  types_ordered : StdMap.Ordered s.entities_types_
  ids_nonneg : ∀ e ∈ s.lookup_areas_, 0 ≤ e.1
  ids_indexed : ∀ a ∈ s.areas_, ∃ regs, StdMap.find a.2 s.lookup_areas_ = some regs
  ids_injective : ∀ a ∈ s.areas_, ∀ b ∈ s.areas_, a.2 = b.2 → a = b

/-- States reached from a fresh register by well-formed `addArea` calls and
arbitrary `removeRegion` calls. -/
inductive ReachableWellFormed : RegionsRegister L → Prop
  | fresh (threaded : Bool) : ReachableWellFormed (new threaded)
  | addArea {s : RegionsRegister L} (regs : List L) :
      ReachableWellFormed s → WellFormedArg s regs → ReachableWellFormed (s.addArea regs).1
  | removeRegion {s : RegionsRegister L} (reg : L) :
      ReachableWellFormed s → ReachableWellFormed (s.removeRegion reg).1

/-- Facts of the states reached with well-formed `addArea` arguments and
without `clear`: the keys of `lookup_areas_` are exactly the live IDs. -/
structure Tight (s : RegionsRegister L) : Prop where
  consistent : Consistent s
  ascending : AreasAscending s
  lookup_live : ∀ e ∈ s.lookup_areas_, ∃ a ∈ s.areas_, a.2 = e.1

/-- States reached from a fresh register by `addArea` calls with non-empty label
lists and by `removeRegion` and `clear` calls. -/
inductive ReachableNonEmpty : RegionsRegister L → Prop
  | fresh (threaded : Bool) : ReachableNonEmpty (new threaded)
  | addArea {s : RegionsRegister L} (regs : List L) :
      ReachableNonEmpty s → regs ≠ [] → ReachableNonEmpty (s.addArea regs).1
  | removeRegion {s : RegionsRegister L} (reg : L) :
      ReachableNonEmpty s → ReachableNonEmpty (s.removeRegion reg).1
  | clear {s : RegionsRegister L} : ReachableNonEmpty s → ReachableNonEmpty s.clear

/-- An ID that is a key of `lookup_areas_` but not the ID of a live area. -/
structure Leaked (i : Int) (s : RegionsRegister L) : Prop where
  consistent : Consistent s
  indexed : ∃ r, StdMap.find i s.lookup_areas_ = some r
  not_live : ∀ a ∈ s.areas_, a.2 ≠ i

/-- Calls of `addArea` in sequence: the final state and the returned IDs, in
call order. -/
def addAreas (s : RegionsRegister L) : List (List L) → RegionsRegister L × List Int
  | [] => (s, [])
  | regs :: rest => ((addAreas (s.addArea regs).1 rest).1,
      (s.addArea regs).2 :: (addAreas (s.addArea regs).1 rest).2)

/-- A label of the concrete scenarios: the characters of a string literal. -/
def label (s : String) : List Char := s.toList

/-- Register of the test fixture `RemoveElements`: a fresh register after
`addArea({"abc"})`, `addArea({"abc", "def"})`, `addArea({"def", "ghi"})` and
`addArea({"jkl", "mno", "pqr"})`. -/
def fixture : RegionsRegister (List Char) :=
  (new false).run
    [.addArea [label "abc"], .addArea [label "abc", label "def"],
      .addArea [label "def", label "ghi"], .addArea [label "jkl", label "mno", label "pqr"]]

/-- State of the test `FindElements` before its last `addArea`: a fresh register
after `addArea({"abc", "def"})`, `addArea({"abc"})`, `addArea({"def", "ghi"})`,
`addArea({"jkl", "mno", "pqr"})` and `removeRegion("def")`. -/
def fixtureFind : RegionsRegister (List Char) :=
  (new false).run
    [.addArea [label "abc", label "def"], .addArea [label "abc"],
      .addArea [label "def", label "ghi"], .addArea [label "jkl", label "mno", label "pqr"],
      .removeRegion (label "def")]

/-- A fresh register after `addArea({"abc", "def"})` and `removeRegion("abc")`. -/
def fixtureResidual : RegionsRegister (List Char) :=
  (new false).run [.addArea [label "abc", label "def"], .removeRegion (label "abc")]

/-- A fresh register after `addArea({"abc"})` and `clear()`. -/
def fixtureCleared : RegionsRegister (List Char) :=
  (new false).run [.addArea [label "abc"], .clear]

/-- A fresh register after calls outside the contract of `addArea`, with a
`clear()` and a `removeRegion` among them: `addArea({"ghi"})`, `clear()`,
`addArea({"abc"})` twice, `addArea({})`, `addArea({"def", "def"})` and
`removeRegion("def")`. -/
def fixtureMisuse : RegionsRegister (List Char) :=
  (new false).run
    [.addArea [label "ghi"], .clear, .addArea [label "abc"], .addArea [label "abc"],
      .addArea [], .addArea [label "def", label "def"], .removeRegion (label "def")]

/-- A fresh register after `addArea({"abc", "def"})`. -/
def fixturePair : RegionsRegister (List Char) :=
  (new false).run [.addArea [label "abc", label "def"]]

/-- A fresh register after `addArea({})`: the empty list is a live area. -/
def fixtureEmpty : RegionsRegister (List Char) :=
  (new false).run [.addArea []]

end RegionsRegister

/-! ## Lemmas on `std::map` -/

namespace StdMap

variable {K V : Type}

theorem find_eq_none_iff [LinearOrder K] (k : K) (m : List (K × V)) :
    find k m = none ↔ ∀ e ∈ m, e.1 ≠ k := by
  induction m with
  | nil => simp [find]
  | cons e m ih =>
    by_cases h : e.1 = k
    · simp [find, h]
    · simp [find, h, ih]

theorem mem_of_find [LinearOrder K] {k : K} {v : V} {m : List (K × V)}
    (h : find k m = some v) : (k, v) ∈ m := by
  induction m with
  | nil => simp [find] at h
  | cons e m ih =>
    by_cases he : e.1 = k
    · simp [find, he] at h
      subst he; subst h
      simp
    · simp [find, he] at h
      exact List.mem_cons_of_mem _ (ih h)

theorem find_of_mem [LinearOrder K] {k : K} {v : V} {m : List (K × V)}
    (hm : Ordered m) (h : (k, v) ∈ m) : find k m = some v := by
  induction m with
  | nil => simp at h
  | cons e m ih =>
    have hm' : Ordered m := (List.sorted_cons.mp hm).2
    have hlt := (List.sorted_cons.mp hm).1
    rcases List.mem_cons.mp h with rfl | h'
    · simp [find]
    · have : e.1 < k := hlt k (List.mem_map.mpr ⟨(k, v), h', rfl⟩)
      simp [find, ne_of_lt this, ih hm' h']

theorem find_eq_some_iff [LinearOrder K] {k : K} {v : V} {m : List (K × V)}
    (hm : Ordered m) : find k m = some v ↔ (k, v) ∈ m :=
  ⟨mem_of_find, find_of_mem hm⟩

theorem find_isSome_iff [LinearOrder K] (k : K) (m : List (K × V)) :
    (∃ v, find k m = some v) ↔ k ∈ m.map Prod.fst := by
  constructor
  · rintro ⟨v, hv⟩
    exact List.mem_map.mpr ⟨(k, v), mem_of_find hv, rfl⟩
  · intro h
    cases hf : find k m with
    | some v => exact ⟨v, rfl⟩
    | none =>
      obtain ⟨e, he, hek⟩ := List.mem_map.mp h
      exact absurd hek ((find_eq_none_iff k m).mp hf e he)

theorem find_assign [LinearOrder K] (k k' : K) (v : V) (m : List (K × V)) :
    find k' (assign k v m) = if k' = k then some v else find k' m := by
  induction m with
  | nil =>
    by_cases h : k' = k
    · simp [assign, find, h]
    · simp [assign, find, h, Ne.symm h]
  | cons e m ih =>
    unfold assign
    by_cases h1 : k < e.1
    · by_cases h : k' = k
      · simp [h1, find, h]
      · simp [h1, find, h, Ne.symm h]
    · by_cases h2 : k = e.1
      · by_cases h : k' = k
        · simp [h1, h2, find, h]
        · have h3 : ¬ e.1 = k' := fun hh => h (by rw [h2, hh])
          have h4 : ¬ k = k' := fun hh => h hh.symm
          rw [if_neg h1, if_pos h2, if_neg h]
          simp [find, h3, h4]
      · by_cases h : k' = k
        · subst h
          simp [h1, h2, find, Ne.symm h2, ih]
        · simp [h1, h2, find, h, ih]

theorem find_erase [LinearOrder K] (k k' : K) (m : List (K × V)) :
    find k' (erase k m) = if k' = k then none else find k' m := by
  induction m with
  | nil => simp [erase, find]
  | cons e m ih =>
    simp only [erase, ne_eq, decide_not] at ih ⊢
    by_cases he : e.1 = k
    · by_cases h : k' = k
      · simpa [List.filter_cons, he, h] using ih
      · have h4 : ¬ k = k' := fun hh => h hh.symm
        simp only [h, if_false] at ih
        simp [List.filter_cons, he, h, find, h4, ih]
    · by_cases h : k' = k
      · subst h
        simpa [List.filter_cons, he, find] using ih
      · simp only [h, if_false] at ih
        simp [List.filter_cons, he, h, find, ih]

theorem insert_of_find_some [LinearOrder K] {k : K} {w : V} (v : V) {m : List (K × V)}
    (h : find k m = some w) : insert k v m = m := by
  simp [insert, h]

theorem insert_of_find_none [LinearOrder K] {k : K} (v : V) {m : List (K × V)}
    (h : find k m = none) : insert k v m = assign k v m := by
  simp [insert, h]

theorem find_insert_of_none [LinearOrder K] {k : K} (k' : K) (v : V) {m : List (K × V)}
    (h : find k m = none) :
    find k' (insert k v m) = if k' = k then some v else find k' m := by
  rw [insert_of_find_none v h, find_assign]

theorem mem_assign [LinearOrder K] {k : K} {v : V} {m : List (K × V)} {e : K × V}
    (h : e ∈ assign k v m) : e = (k, v) ∨ e ∈ m := by
  induction m with
  | nil => simpa [assign] using h
  | cons e' m ih =>
    unfold assign at h
    split_ifs at h with h1 h2
    · rcases List.mem_cons.mp h with h | h
      · exact Or.inl h
      · exact Or.inr h
    · rcases List.mem_cons.mp h with h | h
      · exact Or.inl h
      · exact Or.inr (List.mem_cons_of_mem _ h)
    · rcases List.mem_cons.mp h with h | h
      · exact Or.inr (by rw [h]; exact List.mem_cons_self _ _)
      · rcases ih h with h | h
        · exact Or.inl h
        · exact Or.inr (List.mem_cons_of_mem _ h)

theorem ordered_nil [LinearOrder K] : Ordered ([] : List (K × V)) := by
  simp [Ordered]

theorem ordered_assign [LinearOrder K] (k : K) (v : V) {m : List (K × V)}
    (hm : Ordered m) : Ordered (assign k v m) := by
  induction m with
  | nil => simp [assign, Ordered]
  | cons e m ih =>
    have hm' : Ordered m := (List.sorted_cons.mp hm).2
    have hlt := (List.sorted_cons.mp hm).1
    unfold assign
    split_ifs with h1 h2
    · unfold Ordered at hm ⊢
      simp only [List.map_cons, List.sorted_cons]
      refine ⟨?_, List.sorted_cons.mp hm⟩
      intro b hb
      rcases List.mem_cons.mp hb with rfl | hb
      · exact h1
      · exact lt_trans h1 (hlt b hb)
    · unfold Ordered at hm ⊢
      simp only [List.map_cons, List.sorted_cons]
      refine ⟨?_, (List.sorted_cons.mp hm).2⟩
      intro b hb
      rw [h2]
      exact hlt b hb
    · unfold Ordered
      simp only [List.map_cons, List.sorted_cons]
      refine ⟨?_, ih hm'⟩
      intro b hb
      obtain ⟨e', he', rfl⟩ := List.mem_map.mp hb
      rcases mem_assign he' with rfl | he'
      · exact lt_of_le_of_ne (not_lt.mp h1) (Ne.symm h2)
      · exact hlt _ (List.mem_map.mpr ⟨e', he', rfl⟩)

theorem ordered_erase [LinearOrder K] (k : K) {m : List (K × V)}
    (hm : Ordered m) : Ordered (erase k m) := by
  unfold Ordered erase at *
  exact hm.sublist ((List.filter_sublist m).map Prod.fst)

theorem ordered_insert [LinearOrder K] (k : K) (v : V) {m : List (K × V)}
    (hm : Ordered m) : Ordered (insert k v m) := by
  unfold insert
  cases find k m with
  | some w => exact hm
  | none => exact ordered_assign k v hm

theorem length_assign_of_none [LinearOrder K] {k : K} (v : V) {m : List (K × V)}
    (h : find k m = none) : (assign k v m).length = m.length + 1 := by
  induction m with
  | nil => simp [assign]
  | cons e m ih =>
    unfold assign
    by_cases he : e.1 = k
    · simp [find, he] at h
    · simp only [find, he, if_false] at h
      split_ifs with h1 h2
      · rfl
      · exact absurd h2.symm he
      · simp [ih h]

theorem length_assign_of_some [LinearOrder K] {k : K} {w : V} (v : V) {m : List (K × V)}
    (hm : Ordered m) (h : find k m = some w) : (assign k v m).length = m.length := by
  induction m with
  | nil => simp [find] at h
  | cons e m ih =>
    have hm' : Ordered m := (List.sorted_cons.mp hm).2
    have hlt := (List.sorted_cons.mp hm).1
    unfold assign
    split_ifs with h1 h2
    · exfalso
      rcases List.mem_cons.mp (mem_of_find h) with h3 | h3
      · rw [← h3] at h1; exact lt_irrefl _ h1
      · exact lt_asymm h1 (hlt k (List.mem_map.mpr ⟨(k, w), h3, rfl⟩))
    · rfl
    · simp only [find, Ne.symm h2, if_false] at h
      simp [ih hm' h]

end StdMap

/-! ## ID selection -/

namespace RegionsRegister

variable {L : Type} [LinearOrder L]

theorem scanForGap_spec {V : Type} (m : List (Int × V)) (e : Int × V)
    (hm : StdMap.Ordered (e :: m)) :
    e.1 < scanForGap (e :: m) ∧
      (∀ x ∈ (e :: m).map Prod.fst, x ≠ scanForGap (e :: m)) ∧
      ∀ j, e.1 ≤ j → j < scanForGap (e :: m) → j ∈ (e :: m).map Prod.fst := by
  induction m generalizing e with
  | nil =>
    refine ⟨by simp [scanForGap], ?_, ?_⟩
    · intro x hx
      simp at hx
      simp [scanForGap, hx]
    · intro j h1 h2
      simp [scanForGap] at h2
      simp
      omega
  | cons e' m ih =>
    have hm' : StdMap.Ordered (e' :: m) := (List.sorted_cons.mp hm).2
    have hlt := (List.sorted_cons.mp hm).1
    have hee' : e.1 < e'.1 := hlt e'.1 (by simp)
    by_cases hgap : e.1 + 1 = e'.1
    · have hs : scanForGap (e :: e' :: m) = scanForGap (e' :: m) := by
        simp [scanForGap, hgap]
      obtain ⟨h1, h2, h3⟩ := ih e' hm'
      rw [hs]
      refine ⟨by omega, ?_, ?_⟩
      · intro x hx
        rcases List.mem_cons.mp hx with rfl | hx
        · simp only at *; omega
        · exact h2 x hx
      · intro j hj1 hj2
        by_cases hj : j = e.1
        · simp [hj]
        · exact List.mem_cons_of_mem _ (h3 j (by omega) hj2)
    · have hs : scanForGap (e :: e' :: m) = e.1 + 1 := by
        simp [scanForGap, hgap]
      rw [hs]
      refine ⟨by omega, ?_, ?_⟩
      · intro x hx
        rcases List.mem_cons.mp hx with rfl | hx
        · simp only at *; omega
        · have := hlt x hx
          rcases List.mem_cons.mp hx with rfl | hx'
          · exact fun h => hgap h.symm
          · have h' := (List.sorted_cons.mp hm').1 x hx'
            omega
      · intro j hj1 hj2
        have : j = e.1 := by omega
        simp [this]

/-- The ID picked by `addArea` is the least non-negative integer that is not a
key of `lookup_areas_`, when those keys are non-negative. -/
theorem selectId_spec {V : Type} (m : List (Int × V)) (hm : StdMap.Ordered m)
    (hpos : ∀ e ∈ m, 0 ≤ e.1) :
    0 ≤ selectId m ∧ (∀ e ∈ m, e.1 ≠ selectId m) ∧
      ∀ j, 0 ≤ j → j < selectId m → j ∈ m.map Prod.fst := by
  cases m with
  | nil =>
    refine ⟨by simp [selectId], by simp, ?_⟩
    intro j h1 h2
    simp [selectId] at h2
    omega
  | cons e m =>
    have hlt := (List.sorted_cons.mp hm).1
    by_cases h0 : e.1 = 0
    · have hs : selectId (e :: m) = scanForGap (e :: m) := by
        simp [selectId, h0]
      obtain ⟨h1, h2, h3⟩ := scanForGap_spec m e hm
      rw [hs]
      refine ⟨by omega, ?_, ?_⟩
      · intro x hx
        exact h2 x.1 (List.mem_map.mpr ⟨x, hx, rfl⟩)
      · intro j hj1 hj2
        exact h3 j (by omega) hj2
    · have hs : selectId (e :: m) = 0 := by
        simp [selectId, h0]
      rw [hs]
      refine ⟨le_refl _, ?_, ?_⟩
      · intro x hx
        rcases List.mem_cons.mp hx with rfl | hx
        · exact h0
        · have h1 := hlt x.1 (List.mem_map.mpr ⟨x, hx, rfl⟩)
          have h2 := hpos e (List.mem_cons_self _ _)
          omega
      · intro j hj1 hj2
        omega

end RegionsRegister

/-! ## The scan of `removeRegion` -/

namespace StdMap

variable {K V : Type}

theorem mem_insert [LinearOrder K] {k : K} {v : V} {m : List (K × V)} {e : K × V}
    (h : e ∈ insert k v m) : e = (k, v) ∨ e ∈ m := by
  unfold insert at h
  cases hf : find k m with
  | some w => rw [hf] at h; exact Or.inr h
  | none => rw [hf] at h; exact mem_assign h

theorem find_insert_isSome [LinearOrder K] (k k' : K) (v : V) (m : List (K × V))
    (h : ∃ w, find k' m = some w) : ∃ w, find k' (insert k v m) = some w := by
  cases hf : find k m with
  | some w => rw [insert_of_find_some v hf]; exact h
  | none =>
    rw [find_insert_of_none k' v hf]
    by_cases hk : k' = k
    · exact ⟨v, by simp [hk]⟩
    · simpa [hk] using h

theorem find_insert_self_isSome [LinearOrder K] (k : K) (v : V) (m : List (K × V)) :
    ∃ w, find k (insert k v m) = some w := by
  cases hf : find k m with
  | some w => rw [insert_of_find_some v hf]; exact ⟨w, hf⟩
  | none => rw [find_insert_of_none k v hf]; exact ⟨v, by simp⟩

theorem erase_sublist [LinearOrder K] (k : K) (m : List (K × V)) :
    (erase k m).Sublist m := List.filter_sublist m

theorem ordered_of_sublist [LinearOrder K] {m m' : List (K × V)} (h : m'.Sublist m)
    (hm : Ordered m) : Ordered m' := by
  unfold Ordered at *
  exact hm.sublist (h.map Prod.fst)

theorem find_foldl_erase [LinearOrder K] (k : K) (ks : List K) (m : List (K × V)) :
    find k (ks.foldl (fun m x => erase x m) m) = if k ∈ ks then none else find k m := by
  induction ks generalizing m with
  | nil => simp
  | cons x ks ih =>
    simp only [List.foldl_cons, ih, find_erase, List.mem_cons]
    by_cases h1 : k ∈ ks
    · simp [h1]
    · by_cases h2 : k = x
      · simp [h2]
      · simp [h1, h2]

theorem mem_foldl_erase [LinearOrder K] {e : K × V} (ks : List K) (m : List (K × V))
    (h : e ∈ ks.foldl (fun m x => erase x m) m) : e ∈ m ∧ e.1 ∉ ks := by
  induction ks generalizing m with
  | nil => simpa using h
  | cons x ks ih =>
    simp only [List.foldl_cons] at h
    obtain ⟨h1, h2⟩ := ih _ h
    simp only [erase, ne_eq, decide_not, List.mem_filter, Bool.not_eq_eq_eq_not, Bool.not_true,
      decide_eq_false_iff_not] at h1
    refine ⟨h1.1, ?_⟩
    simp only [List.mem_cons, not_or]
    exact ⟨h1.2, h2⟩

theorem ordered_foldl_erase [LinearOrder K] (ks : List K) {m : List (K × V)}
    (hm : Ordered m) : Ordered (ks.foldl (fun m x => erase x m) m) := by
  induction ks generalizing m with
  | nil => exact hm
  | cons x ks ih => exact ih (ordered_erase x hm)

theorem find_foldl_insert [LinearOrder K] (k : K) (es : List (K × V)) (m : List (K × V)) :
    find k (es.foldl (fun m e => insert e.1 e.2 m) m) = (find k m).orElse (fun _ => find k es) := by
  induction es generalizing m with
  | nil => cases h : find k m <;> simp [find, h]
  | cons e es ih =>
    simp only [List.foldl_cons, ih]
    cases hf : find e.1 m with
    | some w =>
      rw [insert_of_find_some e.2 hf]
      by_cases hk : e.1 = k
      · rw [hk] at hf
        simp [hf]
      · simp [find, hk]
    | none =>
      rw [find_insert_of_none k e.2 hf]
      by_cases hk : e.1 = k
      · rw [hk] at hf
        simp [find, hk, hf]
      · have hk' : ¬ k = e.1 := fun h => hk h.symm
        simp [find, hk, hk']

theorem mem_foldl_insert [LinearOrder K] {e : K × V} (es : List (K × V)) (m : List (K × V))
    (h : e ∈ es.foldl (fun m e => insert e.1 e.2 m) m) : e ∈ m ∨ e ∈ es := by
  induction es generalizing m with
  | nil => exact Or.inl (by simpa using h)
  | cons x es ih =>
    simp only [List.foldl_cons] at h
    rcases ih _ h with h1 | h1
    · rcases mem_insert h1 with h2 | h2
      · exact Or.inr (by rw [h2]; exact List.mem_cons_self _ _)
      · exact Or.inl h2
    · exact Or.inr (List.mem_cons_of_mem _ h1)

theorem ordered_foldl_insert [LinearOrder K] (es : List (K × V)) {m : List (K × V)}
    (hm : Ordered m) : Ordered (es.foldl (fun m e => insert e.1 e.2 m) m) := by
  induction es generalizing m with
  | nil => exact hm
  | cons x es ih => exact ih (ordered_insert x.1 x.2 hm)

theorem mem_assign_self [LinearOrder K] (k : K) (v : V)
    (m : List (K × V)) : (k, v) ∈ assign k v m :=
  mem_of_find (by simp [find_assign])

theorem mem_assign_of_mem [LinearOrder K] {k : K} (v : V)
    {m : List (K × V)} {e : K × V} (he : e ∈ m) (hk : e.1 ≠ k) :
    e ∈ assign k v m := by
  induction m with
  | nil => simp at he
  | cons x m ih =>
    unfold assign
    split_ifs with h1 h2
    · exact List.mem_cons_of_mem _ he
    · rcases List.mem_cons.mp he with h | h
      · rw [h, ← h2] at hk
        exact absurd rfl hk
      · exact List.mem_cons_of_mem _ h
    · rcases List.mem_cons.mp he with h | h
      · rw [h]; exact List.mem_cons_self _ _
      · exact List.mem_cons_of_mem _ (ih h)

end StdMap

namespace RegionsRegister

variable {L : Type} [LinearOrder L]

theorem visit_of_not_mem {areas : List (List L × Int)} {reg : L} (st : RemoveScan L)
    {area : List L × Int} (h : reg ∉ area.1) : removeRegionVisit areas reg st area = st := by
  simp [removeRegionVisit, h]

theorem visit_areas_to_remove (areas : List (List L × Int)) (reg : L) (st : RemoveScan L)
    (area : List L × Int) :
    (removeRegionVisit areas reg st area).areas_to_remove =
      if reg ∈ area.1 then st.areas_to_remove ++ [area.1] else st.areas_to_remove := by
  unfold removeRegionVisit
  by_cases h : reg ∈ area.1
  · simp only [h, if_true]
    split_ifs
    · split <;> rfl
    · rfl
    · rfl
    · rfl
  · simp [h]

theorem visit_areas_to_add (areas : List (List L × Int)) (reg : L) (st : RemoveScan L)
    (area : List L × Int) :
    (removeRegionVisit areas reg st area).areas_to_add =
      if reg ∈ area.1 ∧ area.1.erase reg ≠ [] ∧ findRegionsIn areas (area.1.erase reg) = -1
      then StdMap.insert (area.1.erase reg) area.2 st.areas_to_add else st.areas_to_add := by
  unfold removeRegionVisit
  by_cases h : reg ∈ area.1
  · simp only [h, if_true, true_and, List.length_eq_zero]
    by_cases h2 : area.1.erase reg = []
    · simp only [h2, if_true, ne_eq, not_true_eq_false, false_and, if_false]
      split_ifs
      · split <;> rfl
      · rfl
    · by_cases h3 : findRegionsIn areas (area.1.erase reg) = -1
      · simp [h2, h3]
      · simp [h2, h3]
  · simp [h]

theorem visit_ids_to_update (areas : List (List L × Int)) (reg : L) (st : RemoveScan L)
    (area : List L × Int) :
    (removeRegionVisit areas reg st area).ids_to_update =
      if reg ∈ area.1 ∧ area.1.erase reg ≠ [] ∧ findRegionsIn areas (area.1.erase reg) ≠ -1
      then StdMap.insert area.2 (findRegionsIn areas (area.1.erase reg)) st.ids_to_update
      else st.ids_to_update := by
  unfold removeRegionVisit
  by_cases h : reg ∈ area.1
  · simp only [h, if_true, true_and, List.length_eq_zero]
    by_cases h2 : area.1.erase reg = []
    · simp only [h2, if_true, ne_eq, not_true_eq_false, false_and, if_false]
      split_ifs
      · split <;> rfl
      · rfl
    · by_cases h3 : findRegionsIn areas (area.1.erase reg) = -1
      · simp [h2, h3]
      · simp [h2, h3]
  · simp [h]

theorem visit_lookup_standalone {areas : List (List L × Int)} {reg : L} (st : RemoveScan L)
    {area : List L × Int} (h : reg ∈ area.1) (h2 : area.1.erase reg = []) :
    (removeRegionVisit areas reg st area).lookup_areas_ =
        (if st.standalone_reg_removed = false then
          match StdMap.find [reg] areas with
          | some id_to_remove => StdMap.erase id_to_remove st.lookup_areas_
          | none => st.lookup_areas_
        else st.lookup_areas_) ∧
      (removeRegionVisit areas reg st area).standalone_reg_removed =
        (if st.standalone_reg_removed = false then
          match StdMap.find [reg] areas with
          | some _ => true
          | none => false
        else true) := by
  unfold removeRegionVisit
  simp only [h, if_true, h2, List.length_nil]
  by_cases hf : st.standalone_reg_removed = false
  · simp only [hf, if_true]
    cases StdMap.find [reg] areas with
    | some id => exact ⟨rfl, rfl⟩
    | none => exact ⟨rfl, rfl⟩
  · simp only [hf, if_false]
    exact ⟨rfl, by simp at hf; simp [hf]⟩

theorem visit_lookup_residual {areas : List (List L × Int)} {reg : L} (st : RemoveScan L)
    {area : List L × Int} (h : reg ∈ area.1) (h2 : area.1.erase reg ≠ []) :
    (removeRegionVisit areas reg st area).lookup_areas_ =
        (if findRegionsIn areas (area.1.erase reg) = -1 then st.lookup_areas_
         else StdMap.erase area.2 st.lookup_areas_) ∧
      (removeRegionVisit areas reg st area).standalone_reg_removed =
        st.standalone_reg_removed := by
  unfold removeRegionVisit
  simp only [h, if_true, List.length_eq_zero, h2, if_false]
  by_cases h3 : findRegionsIn areas (area.1.erase reg) = -1
  · simp [h3]
  · simp [h3]

theorem scan_areas_to_remove (areas : List (List L × Int)) (reg : L)
    (P : List (List L × Int)) (st : RemoveScan L) :
    (P.foldl (removeRegionVisit areas reg) st).areas_to_remove =
      st.areas_to_remove ++ (P.filter (fun a => reg ∈ a.1)).map Prod.fst := by
  induction P generalizing st with
  | nil => simp
  | cons a P ih =>
    simp only [List.foldl_cons, ih, visit_areas_to_remove]
    by_cases h : reg ∈ a.1
    · simp [h, List.filter_cons]
    · simp [h, List.filter_cons]

theorem scan_areas_to_add_mem (areas : List (List L × Int)) (reg : L)
    (P : List (List L × Int)) (st : RemoveScan L) (e : List L × Int)
    (h : e ∈ (P.foldl (removeRegionVisit areas reg) st).areas_to_add) :
    e ∈ st.areas_to_add ∨
      ∃ a ∈ P, reg ∈ a.1 ∧ a.1.erase reg = e.1 ∧ e.1 ≠ [] ∧
        findRegionsIn areas e.1 = -1 ∧ a.2 = e.2 := by
  induction P generalizing st with
  | nil => exact Or.inl (by simpa using h)
  | cons a P ih =>
    simp only [List.foldl_cons] at h
    rcases ih _ h with h1 | ⟨b, hb, hrest⟩
    · rw [visit_areas_to_add] at h1
      split_ifs at h1 with hc
      · rcases StdMap.mem_insert h1 with h2 | h2
        · right
          refine ⟨a, List.mem_cons_self _ _, hc.1, ?_, ?_, ?_, ?_⟩
          · rw [h2]
          · rw [h2]; exact hc.2.1
          · rw [h2]; exact hc.2.2
          · rw [h2]
        · exact Or.inl h2
      · exact Or.inl h1
    · exact Or.inr ⟨b, List.mem_cons_of_mem _ hb, hrest⟩

theorem scan_areas_to_add_mono (areas : List (List L × Int)) (reg : L)
    (P : List (List L × Int)) (st : RemoveScan L) (R : List L)
    (h : ∃ i, StdMap.find R st.areas_to_add = some i) :
    ∃ i, StdMap.find R (P.foldl (removeRegionVisit areas reg) st).areas_to_add = some i := by
  induction P generalizing st with
  | nil => simpa using h
  | cons a P ih =>
    simp only [List.foldl_cons]
    apply ih
    rw [visit_areas_to_add]
    split_ifs
    · exact StdMap.find_insert_isSome (a.1.erase reg) R a.2 st.areas_to_add h
    · exact h

theorem scan_areas_to_add_complete (areas : List (List L × Int)) (reg : L)
    (P : List (List L × Int)) (st : RemoveScan L) (a : List L × Int) (ha : a ∈ P)
    (h1 : reg ∈ a.1) (h2 : a.1.erase reg ≠ [])
    (h3 : findRegionsIn areas (a.1.erase reg) = -1) :
    ∃ i, StdMap.find (a.1.erase reg)
      (P.foldl (removeRegionVisit areas reg) st).areas_to_add = some i := by
  induction P generalizing st with
  | nil => simp at ha
  | cons b P ih =>
    simp only [List.foldl_cons]
    rcases List.mem_cons.mp ha with hab | hab
    · subst hab
      apply scan_areas_to_add_mono
      rw [visit_areas_to_add, if_pos ⟨h1, h2, h3⟩]
      exact StdMap.find_insert_self_isSome (a.1.erase reg) a.2 st.areas_to_add
    · exact ih _ hab

theorem scan_areas_to_add_ordered (areas : List (List L × Int)) (reg : L)
    (P : List (List L × Int)) (st : RemoveScan L) (h : StdMap.Ordered st.areas_to_add) :
    StdMap.Ordered (P.foldl (removeRegionVisit areas reg) st).areas_to_add := by
  induction P generalizing st with
  | nil => simpa using h
  | cons a P ih =>
    simp only [List.foldl_cons]
    apply ih
    rw [visit_areas_to_add]
    split_ifs
    · exact StdMap.ordered_insert _ _ h
    · exact h

theorem scan_ids_to_update_mem (areas : List (List L × Int)) (reg : L)
    (P : List (List L × Int)) (st : RemoveScan L) (e : Int × Int)
    (h : e ∈ (P.foldl (removeRegionVisit areas reg) st).ids_to_update) :
    e ∈ st.ids_to_update ∨
      ∃ a ∈ P, reg ∈ a.1 ∧ a.1.erase reg ≠ [] ∧
        findRegionsIn areas (a.1.erase reg) = e.2 ∧ e.2 ≠ -1 ∧ a.2 = e.1 := by
  induction P generalizing st with
  | nil => exact Or.inl (by simpa using h)
  | cons a P ih =>
    simp only [List.foldl_cons] at h
    rcases ih _ h with h1 | ⟨b, hb, hrest⟩
    · rw [visit_ids_to_update] at h1
      split_ifs at h1 with hc
      · rcases StdMap.mem_insert h1 with h2 | h2
        · right
          refine ⟨a, List.mem_cons_self _ _, hc.1, hc.2.1, ?_, ?_, ?_⟩
          · rw [h2]
          · rw [h2]; exact hc.2.2
          · rw [h2]
        · exact Or.inl h2
      · exact Or.inl h1
    · exact Or.inr ⟨b, List.mem_cons_of_mem _ hb, hrest⟩

theorem scan_ids_to_update_mono (areas : List (List L × Int)) (reg : L)
    (P : List (List L × Int)) (st : RemoveScan L) (k : Int)
    (h : ∃ i, StdMap.find k st.ids_to_update = some i) :
    ∃ i, StdMap.find k (P.foldl (removeRegionVisit areas reg) st).ids_to_update = some i := by
  induction P generalizing st with
  | nil => simpa using h
  | cons a P ih =>
    simp only [List.foldl_cons]
    apply ih
    rw [visit_ids_to_update]
    split_ifs
    · exact StdMap.find_insert_isSome a.2 k _ st.ids_to_update h
    · exact h

theorem scan_ids_to_update_complete (areas : List (List L × Int)) (reg : L)
    (P : List (List L × Int)) (st : RemoveScan L) (a : List L × Int) (ha : a ∈ P)
    (h1 : reg ∈ a.1) (h2 : a.1.erase reg ≠ [])
    (h3 : findRegionsIn areas (a.1.erase reg) ≠ -1) :
    ∃ i, StdMap.find a.2
      (P.foldl (removeRegionVisit areas reg) st).ids_to_update = some i := by
  induction P generalizing st with
  | nil => simp at ha
  | cons b P ih =>
    simp only [List.foldl_cons]
    rcases List.mem_cons.mp ha with hab | hab
    · subst hab
      apply scan_ids_to_update_mono
      rw [visit_ids_to_update, if_pos ⟨h1, h2, h3⟩]
      exact StdMap.find_insert_self_isSome a.2 _ st.ids_to_update
    · exact ih _ hab

theorem scan_ids_to_update_ordered (areas : List (List L × Int)) (reg : L)
    (P : List (List L × Int)) (st : RemoveScan L) (h : StdMap.Ordered st.ids_to_update) :
    StdMap.Ordered (P.foldl (removeRegionVisit areas reg) st).ids_to_update := by
  induction P generalizing st with
  | nil => simpa using h
  | cons a P ih =>
    simp only [List.foldl_cons]
    apply ih
    rw [visit_ids_to_update]
    split_ifs
    · exact StdMap.ordered_insert _ _ h
    · exact h

theorem visit_lookup_sublist (areas : List (List L × Int)) (reg : L) (st : RemoveScan L)
    (a : List L × Int) :
    (removeRegionVisit areas reg st a).lookup_areas_.Sublist st.lookup_areas_ := by
  by_cases h : reg ∈ a.1
  · by_cases h2 : a.1.erase reg = []
    · rw [(visit_lookup_standalone st h h2).1]
      split_ifs
      · cases StdMap.find [reg] areas with
        | some id => exact StdMap.erase_sublist _ _
        | none => exact List.Sublist.refl _
      · exact List.Sublist.refl _
    · rw [(visit_lookup_residual st h h2).1]
      split_ifs
      · exact List.Sublist.refl _
      · exact StdMap.erase_sublist _ _
  · rw [visit_of_not_mem st h]

theorem scan_lookup_sublist (areas : List (List L × Int)) (reg : L)
    (P : List (List L × Int)) (st : RemoveScan L) :
    (P.foldl (removeRegionVisit areas reg) st).lookup_areas_.Sublist st.lookup_areas_ := by
  induction P generalizing st with
  | nil => exact List.Sublist.refl _
  | cons a P ih =>
    simp only [List.foldl_cons]
    exact (ih _).trans (visit_lookup_sublist areas reg st a)

theorem visit_lookup_find_none (areas : List (List L × Int)) (reg : L) (st : RemoveScan L)
    (a : List L × Int) (k : Int) :
    StdMap.find k (removeRegionVisit areas reg st a).lookup_areas_ = none ↔
      StdMap.find k st.lookup_areas_ = none ∨
      (reg ∈ a.1 ∧ a.1.erase reg ≠ [] ∧ findRegionsIn areas (a.1.erase reg) ≠ -1 ∧ a.2 = k) ∨
      (st.standalone_reg_removed = false ∧
        reg ∈ a.1 ∧ a.1.erase reg = [] ∧ StdMap.find [reg] areas = some k) := by
  by_cases h : reg ∈ a.1
  · by_cases h2 : a.1.erase reg = []
    · rw [(visit_lookup_standalone st h h2).1]
      by_cases hf : st.standalone_reg_removed = false
      · simp only [hf, if_true, h, h2, ne_eq, not_true_eq_false, false_and, and_false, true_and,
          false_or]
        cases hfind : StdMap.find [reg] areas with
        | some id =>
          simp only [StdMap.find_erase, Option.some.injEq]
          by_cases hk : k = id
          · simp [hk]
          · have hk' : ¬ id = k := fun hh => hk hh.symm
            simp [hk, hk']
        | none => simp
      · simp [hf, h2]
    · rw [(visit_lookup_residual st h h2).1]
      by_cases h3 : findRegionsIn areas (a.1.erase reg) = -1
      · simp [h3, h2]
      · simp only [h3, if_false, StdMap.find_erase, h, h2, ne_eq, not_false_eq_true, true_and,
          and_false, false_and, or_false]
        by_cases hk : k = a.2
        · simp [hk]
        · have hk' : ¬ a.2 = k := fun hh => hk hh.symm
          simp [hk, hk']
  · rw [visit_of_not_mem st h]
    simp [h]

theorem visit_flag (areas : List (List L × Int)) (reg : L) (st : RemoveScan L)
    (a : List L × Int) :
    (removeRegionVisit areas reg st a).standalone_reg_removed = false ↔
      st.standalone_reg_removed = false ∧
        ¬ (reg ∈ a.1 ∧ a.1.erase reg = [] ∧ ∃ id, StdMap.find [reg] areas = some id) := by
  by_cases h : reg ∈ a.1
  · by_cases h2 : a.1.erase reg = []
    · rw [(visit_lookup_standalone st h h2).2]
      by_cases hf : st.standalone_reg_removed = false
      · cases hfind : StdMap.find [reg] areas with
        | some id => simp [hf, h, h2]
        | none => simp [hf, h, h2]
      · simp [hf]
    · rw [(visit_lookup_residual st h h2).2]
      simp [h2]
  · rw [visit_of_not_mem st h]
    simp [h]

theorem scan_lookup_aux (N Ma MP F F' Sa SP Ea : Prop) (hF : F' ↔ F ∧ ¬ Ea)
    (h1 : SP → Ea → Sa) (h2 : Sa → Ea) :
    ((N ∨ Ma ∨ (F ∧ Sa)) ∨ MP ∨ (F' ∧ SP)) ↔ (N ∨ (Ma ∨ MP) ∨ (F ∧ (Sa ∨ SP))) := by
  tauto

/-- A key is absent from `lookup_areas_` after the scan exactly when it was
absent before, or the scan met a merged area with that ID, or it met the
standalone area and that area has this ID. -/
theorem scan_lookup_find_none (areas : List (List L × Int)) (reg : L)
    (P : List (List L × Int)) (st : RemoveScan L) (k : Int) :
    StdMap.find k (P.foldl (removeRegionVisit areas reg) st).lookup_areas_ = none ↔
      StdMap.find k st.lookup_areas_ = none ∨
      (∃ a ∈ P, reg ∈ a.1 ∧ a.1.erase reg ≠ [] ∧
        findRegionsIn areas (a.1.erase reg) ≠ -1 ∧ a.2 = k) ∨
      (st.standalone_reg_removed = false ∧
        ∃ a ∈ P, reg ∈ a.1 ∧ a.1.erase reg = [] ∧ StdMap.find [reg] areas = some k) := by
  induction P generalizing st with
  | nil => simp
  | cons b P ih =>
    simp only [List.foldl_cons]
    rw [ih, visit_lookup_find_none]
    simp only [List.mem_cons, exists_eq_or_imp]
    have hlink : (∃ a, a ∈ P ∧ reg ∈ a.1 ∧ a.1.erase reg = [] ∧
          StdMap.find [reg] areas = some k) →
        (reg ∈ b.1 ∧ b.1.erase reg = [] ∧ ∃ id, StdMap.find [reg] areas = some id) →
        (reg ∈ b.1 ∧ b.1.erase reg = [] ∧ StdMap.find [reg] areas = some k) := by
      rintro ⟨a, _, _, _, hk⟩ ⟨h1, h2, _⟩
      exact ⟨h1, h2, hk⟩
    have hlink2 : (reg ∈ b.1 ∧ b.1.erase reg = [] ∧ StdMap.find [reg] areas = some k) →
        (reg ∈ b.1 ∧ b.1.erase reg = [] ∧ ∃ id, StdMap.find [reg] areas = some id) := by
      rintro ⟨h1, h2, h3⟩
      exact ⟨h1, h2, k, h3⟩
    exact scan_lookup_aux _ _ _ _ _ _ _ _ (visit_flag areas reg st b) hlink hlink2

/-! ## Label lists -/

theorem eq_singleton_of_erase_eq_nil {reg : L} {A : List L} (h : reg ∈ A)
    (h2 : A.erase reg = []) : A = [reg] := by
  have hp := List.perm_cons_erase h
  rw [h2] at hp
  exact List.perm_singleton.mp hp

theorem erase_ne_nil_iff {reg : L} {A : List L} (h : reg ∈ A) :
    A.erase reg ≠ [] ↔ 2 ≤ A.length := by
  have hl := List.length_erase_of_mem h
  have hpos : 0 < A.length := List.length_pos_of_mem h
  rw [← List.length_pos, hl]
  omega

theorem eq_of_erase_eq {reg : L} {A B : List L} (hA : A.Sorted (· < ·))
    (hB : B.Sorted (· < ·)) (h1 : reg ∈ A) (h2 : reg ∈ B)
    (h : A.erase reg = B.erase reg) : A = B := by
  have hp : A.Perm B :=
    (List.perm_cons_erase h1).trans (by rw [h]; exact (List.perm_cons_erase h2).symm)
  exact List.eq_of_perm_of_sorted hp hA hB

theorem not_mem_erase_of_sorted {reg : L} {A : List L} (hA : A.Sorted (· < ·)) :
    reg ∉ A.erase reg :=
  List.Nodup.not_mem_erase hA.nodup

theorem sorted_erase {reg : L} {A : List L} (hA : A.Sorted (· < ·)) :
    (A.erase reg).Sorted (· < ·) :=
  hA.sublist (List.erase_sublist reg A)

/-! ## `removeRegion` in terms of the state before the call -/

theorem removeRegion_areas_to_remove (s : RegionsRegister L) (reg : L) :
    (removeRegionScan s reg).areas_to_remove =
      (s.areas_.filter (fun a => reg ∈ a.1)).map Prod.fst := by
  simp [removeRegionScan, scan_areas_to_remove]

theorem mem_scan_areas_to_add (s : RegionsRegister L) (reg : L) (e : List L × Int)
    (h : e ∈ (removeRegionScan s reg).areas_to_add) :
    ∃ a ∈ s.areas_, reg ∈ a.1 ∧ a.1.erase reg = e.1 ∧ e.1 ≠ [] ∧
      findRegionsIn s.areas_ e.1 = -1 ∧ a.2 = e.2 := by
  rcases scan_areas_to_add_mem _ _ _ _ e h with h1 | h1
  · simp at h1
  · exact h1

theorem scan_areas_to_add_ordered_top (s : RegionsRegister L) (reg : L) :
    StdMap.Ordered (removeRegionScan s reg).areas_to_add :=
  scan_areas_to_add_ordered _ _ _ _ StdMap.ordered_nil

theorem mem_removeRegion_remap (s : RegionsRegister L) (reg : L) (e : Int × Int)
    (h : e ∈ (s.removeRegion reg).2) :
    ∃ a ∈ s.areas_, reg ∈ a.1 ∧ a.1.erase reg ≠ [] ∧
      findRegionsIn s.areas_ (a.1.erase reg) = e.2 ∧ e.2 ≠ -1 ∧ a.2 = e.1 := by
  rcases scan_ids_to_update_mem _ _ _ _ e h with h1 | h1
  · simp at h1
  · exact h1

theorem removeRegion_remap_ordered (s : RegionsRegister L) (reg : L) :
    StdMap.Ordered (s.removeRegion reg).2 :=
  scan_ids_to_update_ordered _ _ _ _ StdMap.ordered_nil

theorem find_removeRegion_areas (s : RegionsRegister L) (reg : L) (B : List L) :
    StdMap.find B (s.removeRegion reg).1.areas_ =
      (if reg ∈ B then none else StdMap.find B s.areas_).orElse
        (fun _ => StdMap.find B (removeRegionScan s reg).areas_to_add) := by
  simp only [removeRegion, StdMap.find_foldl_insert, StdMap.find_foldl_erase,
    removeRegion_areas_to_remove]
  congr 1
  by_cases hB : reg ∈ B
  · simp only [hB, if_true]
    split_ifs with h
    · rfl
    · rw [StdMap.find_eq_none_iff]
      intro e he hek
      apply h
      exact List.mem_map.mpr ⟨e, List.mem_filter.mpr ⟨he, by simpa [hek] using hB⟩, hek⟩
  · simp only [hB, if_false]
    rw [if_neg]
    intro h
    obtain ⟨e, he, hek⟩ := List.mem_map.mp h
    have := (List.mem_filter.mp he).2
    rw [← hek] at hB
    simp at this
    exact hB this

theorem mem_removeRegion_areas (s : RegionsRegister L) (reg : L) (e : List L × Int)
    (h : e ∈ (s.removeRegion reg).1.areas_) :
    (e ∈ s.areas_ ∧ reg ∉ e.1) ∨ e ∈ (removeRegionScan s reg).areas_to_add := by
  simp only [removeRegion] at h
  rcases StdMap.mem_foldl_insert _ _ h with h1 | h1
  · left
    obtain ⟨h2, h3⟩ := StdMap.mem_foldl_erase _ _ h1
    refine ⟨h2, fun hreg => h3 ?_⟩
    rw [removeRegion_areas_to_remove]
    exact List.mem_map.mpr ⟨e, List.mem_filter.mpr ⟨h2, by simpa using hreg⟩, rfl⟩
  · exact Or.inr h1

theorem removeRegion_areas_ordered (s : RegionsRegister L) (reg : L)
    (h : StdMap.Ordered s.areas_) : StdMap.Ordered (s.removeRegion reg).1.areas_ := by
  simp only [removeRegion]
  exact StdMap.ordered_foldl_insert _ (StdMap.ordered_foldl_erase _ h)

theorem removeRegion_lookup_sublist (s : RegionsRegister L) (reg : L) :
    (s.removeRegion reg).1.lookup_areas_.Sublist s.lookup_areas_ :=
  scan_lookup_sublist _ _ _ _

theorem find_removeRegion_lookup_none (s : RegionsRegister L) (reg : L) (k : Int) :
    StdMap.find k (s.removeRegion reg).1.lookup_areas_ = none ↔
      StdMap.find k s.lookup_areas_ = none ∨
      (∃ a ∈ s.areas_, reg ∈ a.1 ∧ a.1.erase reg ≠ [] ∧
        findRegionsIn s.areas_ (a.1.erase reg) ≠ -1 ∧ a.2 = k) ∨
      (∃ a ∈ s.areas_, reg ∈ a.1 ∧ a.1.erase reg = [] ∧
        StdMap.find [reg] s.areas_ = some k) := by
  simp only [removeRegion, removeRegionScan]
  rw [scan_lookup_find_none]
  simp

/-! ## Facts of every reachable state -/

theorem consistent_new (threaded : Bool) : Consistent (new threaded : RegionsRegister L) where
  areas_ordered := StdMap.ordered_nil
  lookup_ordered := StdMap.ordered_nil
  types_ordered := StdMap.ordered_nil
  ids_nonneg := by simp [new]
  ids_indexed := by simp [new]
  ids_injective := by simp [new]

theorem consistent_clear {s : RegionsRegister L} (h : Consistent s) : Consistent s.clear where
  areas_ordered := StdMap.ordered_nil
  lookup_ordered := h.lookup_ordered
  types_ordered := h.types_ordered
  ids_nonneg := h.ids_nonneg
  ids_indexed := by simp [clear]
  ids_injective := by simp [clear]

theorem consistent_addEntityType {s : RegionsRegister L} (h : Consistent s) (entity : L)
    (type : String) : Consistent (s.addEntityType entity type) where
  areas_ordered := h.areas_ordered
  lookup_ordered := h.lookup_ordered
  types_ordered := StdMap.ordered_assign _ _ h.types_ordered
  ids_nonneg := h.ids_nonneg
  ids_indexed := h.ids_indexed
  ids_injective := h.ids_injective

/-- The ID returned by `addArea` is not the ID of a live area. -/
theorem selectId_not_live {s : RegionsRegister L} (h : Consistent s) :
    ∀ a ∈ s.areas_, a.2 ≠ selectId s.lookup_areas_ := by
  intro a ha
  obtain ⟨regs, hregs⟩ := h.ids_indexed a ha
  exact (selectId_spec s.lookup_areas_ h.lookup_ordered h.ids_nonneg).2.1 _
    (StdMap.mem_of_find hregs)

theorem consistent_addArea {s : RegionsRegister L} (h : Consistent s) (regs : List L) :
    Consistent (s.addArea regs).1 where
  areas_ordered := StdMap.ordered_assign _ _ h.areas_ordered
  lookup_ordered := StdMap.ordered_assign _ _ h.lookup_ordered
  types_ordered := h.types_ordered
  ids_nonneg := by
    intro e he
    rcases StdMap.mem_assign he with rfl | he
    · exact (selectId_spec s.lookup_areas_ h.lookup_ordered h.ids_nonneg).1
    · exact h.ids_nonneg e he
  ids_indexed := by
    intro a ha
    show ∃ r, StdMap.find a.2 (StdMap.assign (selectId s.lookup_areas_) regs s.lookup_areas_)
      = some r
    rw [StdMap.find_assign]
    rcases StdMap.mem_assign ha with rfl | ha
    · exact ⟨regs, by simp⟩
    · have hne := selectId_not_live h a ha
      simpa [hne] using h.ids_indexed a ha
  ids_injective := by
    intro a ha b hb hab
    rcases StdMap.mem_assign ha with rfl | ha
    · rcases StdMap.mem_assign hb with rfl | hb
      · rfl
      · exact absurd hab.symm (selectId_not_live h b hb)
    · rcases StdMap.mem_assign hb with rfl | hb
      · exact absurd hab (selectId_not_live h a ha)
      · exact h.ids_injective a ha b hb hab

/-- Every entry of `areas_` after `removeRegion` carries the ID of an entry
before the call: of itself when it does not contain the label, otherwise of the
area it is the residual of. -/
theorem removeRegion_entry_origin (s : RegionsRegister L) (reg : L) (e : List L × Int)
    (h : e ∈ (s.removeRegion reg).1.areas_) :
    ∃ a ∈ s.areas_, a.2 = e.2 ∧
      ((a = e ∧ reg ∉ a.1) ∨
        (reg ∈ a.1 ∧ a.1.erase reg = e.1 ∧ e.1 ≠ [] ∧ findRegionsIn s.areas_ e.1 = -1)) := by
  rcases mem_removeRegion_areas s reg e h with ⟨h1, h2⟩ | h1
  · exact ⟨e, h1, rfl, Or.inl ⟨rfl, h2⟩⟩
  · obtain ⟨a, ha, h2, h3, h4, h5, h6⟩ := mem_scan_areas_to_add s reg e h1
    exact ⟨a, ha, h6, Or.inr ⟨h2, h3, h4, h5⟩⟩

theorem consistent_removeRegion {s : RegionsRegister L} (h : Consistent s) (reg : L) :
    Consistent (s.removeRegion reg).1 where
  areas_ordered := removeRegion_areas_ordered s reg h.areas_ordered
  lookup_ordered := StdMap.ordered_of_sublist (removeRegion_lookup_sublist s reg) h.lookup_ordered
  types_ordered := h.types_ordered
  ids_nonneg := fun e he => h.ids_nonneg e ((removeRegion_lookup_sublist s reg).subset he)
  ids_indexed := by
    intro e he
    obtain ⟨a, ha, hid, horigin⟩ := removeRegion_entry_origin s reg e he
    cases hfind : StdMap.find e.2 (s.removeRegion reg).1.lookup_areas_ with
    | some r => exact ⟨r, rfl⟩
    | none =>
      exfalso
      rcases (find_removeRegion_lookup_none s reg e.2).mp hfind with h1 | h1 | h1
      · obtain ⟨r, hr⟩ := h.ids_indexed a ha
        rw [hid, h1] at hr
        exact Option.noConfusion hr
      · obtain ⟨b, hb, hb1, hb2, hb3, hb4⟩ := h1
        have hab : a = b := h.ids_injective a ha b hb (by rw [hid, hb4])
        subst hab
        rcases horigin with ⟨_, h2⟩ | ⟨_, h2, _, h3⟩
        · exact h2 hb1
        · rw [h2] at hb3
          exact hb3 h3
      · obtain ⟨b, _, _, _, hb3⟩ := h1
        have hmem := StdMap.mem_of_find hb3
        have hab : a = ([reg], e.2) := h.ids_injective a ha _ hmem hid
        subst hab
        rcases horigin with ⟨_, h2⟩ | ⟨_, h2, h3, _⟩
        · exact h2 (List.mem_singleton_self reg)
        · rw [← h2] at h3
          simp at h3
  ids_injective := by
    intro e1 he1 e2 he2 h12
    obtain ⟨a1, ha1, hid1, ho1⟩ := removeRegion_entry_origin s reg e1 he1
    obtain ⟨a2, ha2, hid2, ho2⟩ := removeRegion_entry_origin s reg e2 he2
    have ha : a1 = a2 := h.ids_injective a1 ha1 a2 ha2 (by rw [hid1, hid2, h12])
    subst ha
    rcases ho1 with ⟨h1, h1'⟩ | ⟨h1, h1', _⟩
    · rcases ho2 with ⟨h2, _⟩ | ⟨h2, _⟩
      · rw [← h1, ← h2]
      · exact absurd h2 h1'
    · rcases ho2 with ⟨_, h2'⟩ | ⟨_, h2', _⟩
      · exact absurd h1 h2'
      · exact Prod.ext (by rw [← h1', ← h2']) h12

theorem consistent_perform {s : RegionsRegister L} (h : Consistent s) (c : Call L) :
    Consistent (s.perform c) := by
  cases c with
  | addArea regs => exact consistent_addArea h regs
  | removeRegion reg => exact consistent_removeRegion h reg
  | clear => exact consistent_clear h
  | addEntityType entity type => exact consistent_addEntityType h entity type

theorem consistent_of_reachable {s : RegionsRegister L} (h : Reachable s) : Consistent s := by
  induction h with
  | fresh threaded => exact consistent_new threaded
  | call c _ ih => exact consistent_perform ih c

/-- In a consistent state a residual that `findRegions` does not find (result
`-1`) is not a key of `areas_`: no live ID is negative. -/
theorem find_eq_none_of_findRegionsIn {s : RegionsRegister L} (h : Consistent s) {R : List L}
    (hR : findRegionsIn s.areas_ R = -1) : StdMap.find R s.areas_ = none := by
  cases hf : StdMap.find R s.areas_ with
  | none => rfl
  | some id =>
    exfalso
    simp only [findRegionsIn, hf] at hR
    obtain ⟨r, hr⟩ := h.ids_indexed _ (StdMap.mem_of_find hf)
    have := h.ids_nonneg _ (StdMap.mem_of_find hr)
    simp only at this
    omega

theorem findRegionsIn_of_find_none {areas : List (List L × Int)} {R : List L}
    (hR : StdMap.find R areas = none) : findRegionsIn areas R = -1 := by
  simp [findRegionsIn, hR]

theorem findRegionsIn_of_find_some {areas : List (List L × Int)} {R : List L} {id : Int}
    (hR : StdMap.find R areas = some id) : findRegionsIn areas R = id := by
  simp [findRegionsIn, hR]

theorem reachable_run {s : RegionsRegister L} (h : Reachable s) (calls : List (Call L)) :
    Reachable (s.run calls) := by
  induction calls generalizing s with
  | nil => exact h
  | cons c calls ih => exact ih (Reachable.call c h)

theorem reachable_fixture : Reachable fixture :=
  reachable_run (Reachable.fresh false) _

/-! ## Queries -/

theorem findRegions_of_mem {s : RegionsRegister L} (h : Consistent s) {area : List L} {id : Int}
    (hmem : (area, id) ∈ s.areas_) : s.findRegions area = id :=
  findRegionsIn_of_find_some (StdMap.find_of_mem h.areas_ordered hmem)

theorem findRegionsById_of_mem {s : RegionsRegister L} (h : Consistent s) {area : List L}
    {id : Int} (hmem : (area, id) ∈ s.areas_) : s.findRegionsById id = area := by
  unfold findRegionsById
  cases hf : s.areas_.find? (fun elem => elem.2 = id) with
  | none =>
    have := List.find?_eq_none.mp hf (area, id) hmem
    simp at this
  | some elem =>
    have h1 : elem.2 = id := by simpa using List.find?_some hf
    have h2 : elem ∈ s.areas_ := List.mem_of_find?_eq_some hf
    have := h.ids_injective elem h2 (area, id) hmem h1
    simp [this]

theorem getEntityIds_eq_nil_aux (entity : L) (areas : List (List L × Int)) (ids : List Int)
    (h : ∀ area ∈ areas, entity ∉ area.1) :
    areas.foldl (fun ids area => if entity ∈ area.1 then ids ++ [area.2] else ids) ids = ids := by
  induction areas generalizing ids with
  | nil => rfl
  | cons a areas ih =>
    simp only [List.foldl_cons, h a (List.mem_cons_self _ _), if_false]
    exact ih ids (fun b hb => h b (List.mem_cons_of_mem _ hb))

theorem mem_getInstances_inner (x : L) (regs : List L) (acc : List L)
    (h : x ∈ regs.foldl (fun acc i => if i ∈ acc then acc else acc ++ [i]) acc) :
    x ∈ acc ∨ x ∈ regs := by
  induction regs generalizing acc with
  | nil => exact Or.inl h
  | cons r regs ih =>
    simp only [List.foldl_cons] at h
    rcases ih _ h with h1 | h1
    · split_ifs at h1
      · exact Or.inl h1
      · rcases List.mem_append.mp h1 with h2 | h2
        · exact Or.inl h2
        · exact Or.inr (by simp at h2; simp [h2])
    · exact Or.inr (List.mem_cons_of_mem _ h1)

theorem mem_getInstances_aux (x : L) (areas : List (List L × Int)) (acc : List L)
    (h : x ∈ areas.foldl
      (fun instances area =>
        area.1.foldl (fun acc i => if i ∈ acc then acc else acc ++ [i]) instances) acc) :
    x ∈ acc ∨ ∃ area ∈ areas, x ∈ area.1 := by
  induction areas generalizing acc with
  | nil => exact Or.inl h
  | cons a areas ih =>
    simp only [List.foldl_cons] at h
    rcases ih _ h with h1 | ⟨b, hb, hx⟩
    · rcases mem_getInstances_inner x a.1 acc h1 with h2 | h2
      · exact Or.inl h2
      · exact Or.inr ⟨a, List.mem_cons_self _ _, h2⟩
    · exact Or.inr ⟨b, List.mem_cons_of_mem _ hb, hx⟩

theorem scan_of_absent (areas : List (List L × Int)) (reg : L) (P : List (List L × Int))
    (st : RemoveScan L) (h : ∀ area ∈ P, reg ∉ area.1) :
    P.foldl (removeRegionVisit areas reg) st = st := by
  induction P generalizing st with
  | nil => rfl
  | cons a P ih =>
    simp only [List.foldl_cons, visit_of_not_mem st (h a (List.mem_cons_self _ _))]
    exact ih st (fun b hb => h b (List.mem_cons_of_mem _ hb))

/-! ## Claims -/

/-- C5: in a state whose live areas are duplicate-free label lists, after
`removeRegion(reg)` no live area contains `reg`: `getEntityIds(reg)` is empty,
`reg` is not an element of `getInstances()`, and `findRegions({reg})` is `-1`. -/
theorem removeRegion_removes_label (s : RegionsRegister L)
    (hdup : ∀ area ∈ s.areas_, area.1.Nodup) (reg : L) :
    (∀ area ∈ (s.removeRegion reg).1.areas_, reg ∉ area.1) ∧
      (s.removeRegion reg).1.getEntityIds reg = [] ∧
      reg ∉ (s.removeRegion reg).1.getInstances ∧
      (s.removeRegion reg).1.findRegions [reg] = -1 := by
  have hno : ∀ area ∈ (s.removeRegion reg).1.areas_, reg ∉ area.1 := by
    intro e he
    rcases mem_removeRegion_areas s reg e he with ⟨_, h2⟩ | h1
    · exact h2
    · obtain ⟨a, ha, _, h3, _⟩ := mem_scan_areas_to_add s reg e h1
      rw [← h3]
      exact List.Nodup.not_mem_erase (hdup a ha)
  refine ⟨hno, getEntityIds_eq_nil_aux reg _ [] hno, ?_, ?_⟩
  · intro hx
    rcases mem_getInstances_aux reg _ [] hx with h1 | ⟨a, ha, h1⟩
    · simp at h1
    · exact hno a ha h1
  · apply findRegionsIn_of_find_none
    rw [StdMap.find_eq_none_iff]
    intro e he hek
    exact hno e he (by rw [hek]; exact List.mem_singleton_self reg)

/-- Witness of C5 on the test fixture, label `"def"`. -/
theorem removeRegion_removes_label_witness :
    (∀ area ∈ fixture.areas_, area.1.Nodup) ∧
      (∀ area ∈ (fixture.removeRegion (label "def")).1.areas_, label "def" ∉ area.1) ∧
      (fixture.removeRegion (label "def")).1.getEntityIds (label "def") = [] ∧
      label "def" ∉ (fixture.removeRegion (label "def")).1.getInstances ∧
      (fixture.removeRegion (label "def")).1.findRegions [label "def"] = -1 :=
  ⟨by decide, removeRegion_removes_label fixture (by decide) (label "def")⟩

/-- C6: when the label occurs in no live area, `removeRegion` returns the empty
mapping and leaves the whole state (the areas map, the reverse ID index, the
counter and the entity-type store) as it was. -/
theorem removeRegion_absent_label (s : RegionsRegister L) (reg : L)
    (h : ∀ area ∈ s.areas_, reg ∉ area.1) : s.removeRegion reg = (s, []) := by
  simp [removeRegion, removeRegionScan, scan_of_absent _ _ _ _ h]

/-- Witness of C6 on the test fixture, label `"xyz"`. -/
theorem removeRegion_absent_label_witness :
    (∀ area ∈ fixture.areas_, label "xyz" ∉ area.1) ∧
      fixture.removeRegion (label "xyz") = (fixture, []) :=
  ⟨by decide, removeRegion_absent_label fixture (label "xyz") (by decide)⟩

/-- C7: in every reachable state, for every entry `(area, id)` of the areas map,
`findRegions(area) = id` and `findRegionsById(id) = area`, so the two lookups
undo each other. -/
theorem findRegions_findRegionsById_inverse (s : RegionsRegister L) (hs : Reachable s)
    (area : List L) (id : Int) (hlive : (area, id) ∈ s.areas_) :
    s.findRegions area = id ∧ s.findRegionsById id = area ∧
      s.findRegionsById (s.findRegions area) = area ∧
      s.findRegions (s.findRegionsById id) = id := by
  have hc := consistent_of_reachable hs
  have h1 := findRegions_of_mem hc hlive
  have h2 := findRegionsById_of_mem hc hlive
  exact ⟨h1, h2, by rw [h1, h2], by rw [h2, h1]⟩

/-- Witness of C7 on the test fixture, area `{"def", "ghi"}` with ID 2. -/
theorem findRegions_findRegionsById_inverse_witness :
    Reachable fixture ∧ ([label "def", label "ghi"], (2 : Int)) ∈ fixture.areas_ ∧
      fixture.findRegions [label "def", label "ghi"] = 2 ∧
      fixture.findRegionsById 2 = [label "def", label "ghi"] ∧
      fixture.findRegionsById (fixture.findRegions [label "def", label "ghi"])
        = [label "def", label "ghi"] ∧
      fixture.findRegions (fixture.findRegionsById 2) = 2 :=
  ⟨reachable_fixture, by decide,
    findRegions_findRegionsById_inverse fixture reachable_fixture
      [label "def", label "ghi"] 2 (by decide)⟩

/-- In a consistent state `findRegions` answers `-1` only for an area that is
not live. -/
theorem find_of_findRegionsIn_ne {areas : List (List L × Int)} {R : List L} {id : Int}
    (h : findRegionsIn areas R = id) (hne : id ≠ -1) : StdMap.find R areas = some id := by
  cases hf : StdMap.find R areas with
  | none => simp [findRegionsIn, hf] at h; exact absurd h.symm hne
  | some j => simp [findRegionsIn, hf] at h; rw [h]

theorem live_id_ne_neg_one {s : RegionsRegister L} (h : Consistent s) {a : List L × Int}
    (ha : a ∈ s.areas_) : a.2 ≠ -1 := by
  obtain ⟨r, hr⟩ := h.ids_indexed a ha
  have := h.ids_nonneg _ (StdMap.mem_of_find hr)
  simp only at this
  omega

/-- Entries of the remap returned by `removeRegion`, in a consistent state. -/
theorem mem_remap_iff {s : RegionsRegister L} (h : Consistent s) (reg : L) (old new : Int) :
    (old, new) ∈ (s.removeRegion reg).2 ↔
      ∃ area, (area, old) ∈ s.areas_ ∧ reg ∈ area ∧ 2 ≤ area.length ∧
        (area.erase reg, new) ∈ s.areas_ := by
  constructor
  · intro hmem
    obtain ⟨a, ha, h1, h2, h3, h4, h5⟩ := mem_removeRegion_remap s reg _ hmem
    simp only at h3 h4 h5
    refine ⟨a.1, ?_, h1, (erase_ne_nil_iff h1).mp h2,
      StdMap.mem_of_find (find_of_findRegionsIn_ne h3 h4)⟩
    rw [← h5]
    exact ha
  · rintro ⟨area, ha, h1, h2, h3⟩
    have hne : area.erase reg ≠ [] := (erase_ne_nil_iff h1).mpr h2
    have hfind : findRegionsIn s.areas_ (area.erase reg) = new :=
      findRegionsIn_of_find_some (StdMap.find_of_mem h.areas_ordered h3)
    have hnew : findRegionsIn s.areas_ (area.erase reg) ≠ -1 := by
      rw [hfind]
      exact live_id_ne_neg_one h h3
    obtain ⟨n, hn⟩ := scan_ids_to_update_complete s.areas_ reg s.areas_
      { areas_to_remove := [], areas_to_add := [], ids_to_update := [],
        lookup_areas_ := s.lookup_areas_, standalone_reg_removed := false }
      (area, old) ha h1 hne hnew
    have hmem : (old, n) ∈ (s.removeRegion reg).2 := StdMap.mem_of_find hn
    obtain ⟨a, ha', _, _, h6, _, h8⟩ := mem_removeRegion_remap s reg _ hmem
    simp only at h6 h8
    have haa : a = (area, old) := h.ids_injective a ha' _ ha h8
    rw [haa] at h6
    simp only at h6
    rw [h6] at hfind
    rw [← hfind]
    exact hmem

/-- C3: the remap returned by `removeRegion(reg)` is a map whose entries are
exactly the pairs `(old, new)` where `old` is the ID of a live area that
contains `reg`, has at least two labels and whose residual was live before the
call with ID `new`. The ID of an area that is the standalone area `{reg}`, does
not contain `reg`, or has a residual that was not live, is not a key of it.
This holds in every reachable state, also when the live areas are not strictly
ascending lists. -/
theorem removeRegion_remap_exact (s : RegionsRegister L) (hs : Reachable s) (reg : L) :
    StdMap.Ordered (s.removeRegion reg).2 ∧
      (∀ old new : Int, (old, new) ∈ (s.removeRegion reg).2 ↔
        ∃ area, (area, old) ∈ s.areas_ ∧ reg ∈ area ∧ 2 ≤ area.length ∧
          (residual area reg, new) ∈ s.areas_) ∧
      (∀ (area : List L) (id : Int), (area, id) ∈ s.areas_ →
        (area = [reg] ∨ reg ∉ area ∨ StdMap.find (residual area reg) s.areas_ = none) →
        StdMap.find id (s.removeRegion reg).2 = none) := by
  have hc := consistent_of_reachable hs
  refine ⟨removeRegion_remap_ordered s reg, mem_remap_iff hc reg, ?_⟩
  intro area id hlive hcase
  cases hf : StdMap.find id (s.removeRegion reg).2 with
  | none => rfl
  | some n =>
    exfalso
    obtain ⟨area', h1, h2, h3, h4⟩ := (mem_remap_iff hc reg id n).mp (StdMap.mem_of_find hf)
    have heq : area' = area := congrArg Prod.fst (hc.ids_injective _ h1 _ hlive rfl)
    subst heq
    rcases hcase with h5 | h5 | h5
    · rw [h5] at h3
      simp at h3
    · exact h5 h2
    · rw [StdMap.find_of_mem hc.areas_ordered h4] at h5
      exact Option.noConfusion h5

/-- Witness of C3 on the test fixture, label `"def"`. -/
theorem removeRegion_remap_exact_witness :
    Reachable fixture ∧ StdMap.Ordered (fixture.removeRegion (label "def")).2 ∧
      (∀ old new : Int, (old, new) ∈ (fixture.removeRegion (label "def")).2 ↔
        ∃ area, (area, old) ∈ fixture.areas_ ∧ label "def" ∈ area ∧ 2 ≤ area.length ∧
          (residual area (label "def"), new) ∈ fixture.areas_) ∧
      (∀ (area : List (List Char)) (id : Int), (area, id) ∈ fixture.areas_ →
        (area = [label "def"] ∨ label "def" ∉ area ∨
          StdMap.find (residual area (label "def")) fixture.areas_ = none) →
        StdMap.find id (fixture.removeRegion (label "def")).2 = none) :=
  ⟨reachable_fixture, removeRegion_remap_exact fixture reachable_fixture (label "def")⟩

/-- The residual of a live area is live with the ID of that area after
`removeRegion`, when it was not live before and the live areas are strictly
ascending lists. -/
theorem find_new_residual {s : RegionsRegister L} (hc : Consistent s)
    (hasc : AreasAscending s) (reg : L) {a : List L × Int} (ha : a ∈ s.areas_)
    (hreg : reg ∈ a.1) (hne : a.1.erase reg ≠ [])
    (hres : StdMap.find (a.1.erase reg) s.areas_ = none) :
    StdMap.find (a.1.erase reg) (s.removeRegion reg).1.areas_ = some a.2 := by
  rw [find_removeRegion_areas]
  have h1 : (if reg ∈ a.1.erase reg then none else StdMap.find (a.1.erase reg) s.areas_)
      = none := by
    split_ifs
    · rfl
    · exact hres
  rw [h1]
  obtain ⟨i, hi⟩ := scan_areas_to_add_complete s.areas_ reg s.areas_
    { areas_to_remove := [], areas_to_add := [], ids_to_update := [],
      lookup_areas_ := s.lookup_areas_, standalone_reg_removed := false }
    a ha hreg hne (findRegionsIn_of_find_none hres)
  obtain ⟨b, hb, h2, h3, _, _, h6⟩ := mem_scan_areas_to_add s reg _ (StdMap.mem_of_find hi)
  simp only at h3 h6
  have hkey : b.1 = a.1 := eq_of_erase_eq (hasc b hb) (hasc a ha) h2 hreg h3
  have h7 := StdMap.find_of_mem (k := b.1) (v := b.2) hc.areas_ordered hb
  rw [hkey, StdMap.find_of_mem (k := a.1) (v := a.2) hc.areas_ordered ha] at h7
  have hid : a.2 = i := by
    rw [← h6]
    exact Option.some.inj h7
  simp only [Option.orElse]
  show StdMap.find (a.1.erase reg) (removeRegionScan s reg).areas_to_add = some a.2
  rw [hid]
  exact hi

/-- C4: in a reachable state whose live areas are strictly ascending label
lists, let `area` be live with ID `id`, contain `reg`, have at least two labels,
and have a residual that is not live. After `removeRegion(reg)` the residual is
live with that same ID, `findRegionsById(id)` is the residual, and `area` is no
longer found. -/
theorem removeRegion_new_residual_keeps_id (s : RegionsRegister L) (hs : Reachable s)
    (hasc : AreasAscending s) (reg : L) (area : List L) (id : Int)
    (hlive : (area, id) ∈ s.areas_) (hreg : reg ∈ area) (hlen : 2 ≤ area.length)
    (hres : StdMap.find (residual area reg) s.areas_ = none) :
    (s.removeRegion reg).1.findRegions (residual area reg) = id ∧
      (s.removeRegion reg).1.findRegionsById id = residual area reg ∧
      (s.removeRegion reg).1.findRegions area = -1 := by
  simp only [residual] at hres ⊢
  have hc := consistent_of_reachable hs
  have hc' : Consistent (s.removeRegion reg).1 := consistent_removeRegion hc reg
  have hne : area.erase reg ≠ [] := (erase_ne_nil_iff hreg).mpr hlen
  have hfind : StdMap.find (area.erase reg) (s.removeRegion reg).1.areas_ = some id :=
    find_new_residual hc hasc reg hlive hreg hne hres
  have hmem : (area.erase reg, id) ∈ (s.removeRegion reg).1.areas_ := StdMap.mem_of_find hfind
  refine ⟨findRegions_of_mem hc' hmem, findRegionsById_of_mem hc' hmem, ?_⟩
  apply findRegionsIn_of_find_none
  rw [find_removeRegion_areas]
  simp only [hreg, if_true, Option.orElse]
  cases hadd : StdMap.find area (removeRegionScan s reg).areas_to_add with
  | none => rfl
  | some i =>
    exfalso
    obtain ⟨a, ha, _, h3, _⟩ := mem_scan_areas_to_add s reg _ (StdMap.mem_of_find hadd)
    simp only at h3
    rw [← h3] at hreg
    exact not_mem_erase_of_sorted (hasc a ha) hreg

/-- Witness of C4 on the test fixture: removing `"def"` turns the area
`{"def", "ghi"}` (ID 2) into the new area `{"ghi"}`. -/
theorem removeRegion_new_residual_keeps_id_witness :
    Reachable fixture ∧ AreasAscending fixture ∧
      ([label "def", label "ghi"], (2 : Int)) ∈ fixture.areas_ ∧
      label "def" ∈ [label "def", label "ghi"] ∧ 2 ≤ [label "def", label "ghi"].length ∧
      StdMap.find (residual [label "def", label "ghi"] (label "def")) fixture.areas_ = none ∧
      (fixture.removeRegion (label "def")).1.findRegions [label "ghi"] = 2 ∧
      (fixture.removeRegion (label "def")).1.findRegionsById 2 = [label "ghi"] ∧
      (fixture.removeRegion (label "def")).1.findRegions [label "def", label "ghi"] = -1 :=
  ⟨reachable_fixture, by unfold AreasAscending; decide, by decide, by decide, by decide,
    by decide,
    removeRegion_new_residual_keeps_id fixture reachable_fixture
      (by unfold AreasAscending; decide) (label "def") [label "def", label "ghi"] 2
      (by decide) (by decide) (by decide) (by decide)⟩

theorem tight_new (threaded : Bool) : Tight (new threaded : RegionsRegister L) where
  consistent := consistent_new threaded
  ascending := by simp [AreasAscending, new]
  lookup_live := by simp [new]

theorem tight_addArea {s : RegionsRegister L} (h : Tight s) {regs : List L}
    (hregs : WellFormedArg s regs) : Tight (s.addArea regs).1 where
  consistent := consistent_addArea h.consistent regs
  ascending := by
    intro a ha
    rcases StdMap.mem_assign ha with rfl | ha
    · exact hregs.2.1
    · exact h.ascending a ha
  lookup_live := by
    intro e he
    rcases StdMap.mem_assign he with rfl | he
    · exact ⟨(regs, selectId s.lookup_areas_), StdMap.mem_assign_self _ _ _, rfl⟩
    · obtain ⟨a, ha, hae⟩ := h.lookup_live e he
      exact ⟨a, StdMap.mem_assign_of_mem _ ha
        ((StdMap.find_eq_none_iff regs s.areas_).mp hregs.2.2 a ha), hae⟩

theorem tight_removeRegion {s : RegionsRegister L} (h : Tight s) (reg : L) :
    Tight (s.removeRegion reg).1 where
  consistent := consistent_removeRegion h.consistent reg
  ascending := by
    intro e he
    obtain ⟨a, ha, _, horigin⟩ := removeRegion_entry_origin s reg e he
    rcases horigin with ⟨h1, _⟩ | ⟨_, h2, _⟩
    · rw [← h1]; exact h.ascending a ha
    · rw [← h2]; exact sorted_erase (h.ascending a ha)
  lookup_live := by
    intro e he
    have hc := h.consistent
    have hc' := consistent_removeRegion hc reg
    have hsome : StdMap.find e.1 (s.removeRegion reg).1.lookup_areas_ = some e.2 :=
      StdMap.find_of_mem hc'.lookup_ordered he
    have hnot := mt (find_removeRegion_lookup_none s reg e.1).mpr
      (by rw [hsome]; exact fun hh => Option.noConfusion hh)
    obtain ⟨a, ha, hae⟩ := h.lookup_live e ((removeRegion_lookup_sublist s reg).subset he)
    have hfa : StdMap.find a.1 s.areas_ = some a.2 :=
      StdMap.find_of_mem (k := a.1) (v := a.2) hc.areas_ordered ha
    by_cases hreg : reg ∈ a.1
    · by_cases hnil : a.1.erase reg = []
      · exfalso
        apply hnot
        refine Or.inr (Or.inr ⟨a, ha, hreg, hnil, ?_⟩)
        rw [← eq_singleton_of_erase_eq_nil hreg hnil, ← hae]
        exact hfa
      · by_cases hfr : findRegionsIn s.areas_ (a.1.erase reg) = -1
        · have := find_new_residual hc h.ascending reg ha hreg hnil
            (find_eq_none_of_findRegionsIn hc hfr)
          exact ⟨(a.1.erase reg, a.2), StdMap.mem_of_find this, hae⟩
        · exfalso
          apply hnot
          exact Or.inr (Or.inl ⟨a, ha, hreg, hnil, hfr, hae⟩)
    · refine ⟨a, StdMap.mem_of_find (k := a.1) (v := a.2) ?_, hae⟩
      rw [find_removeRegion_areas]
      simp [hreg, hfa]

theorem tight_of_reachableWellFormed {s : RegionsRegister L} (h : ReachableWellFormed s) :
    Tight s := by
  induction h with
  | fresh threaded => exact tight_new threaded
  | addArea regs _ hregs ih => exact tight_addArea ih hregs
  | removeRegion reg _ ih => exact tight_removeRegion ih reg

/-- C1: in every state reached from a fresh register by well-formed `addArea`
calls and arbitrary `removeRegion` calls, `addArea` returns the smallest
non-negative integer that is not the ID of a live area (so an ID freed by
`removeRegion` is reused before any higher unused ID). The returned ID does not
depend on the argument, so this holds for every argument, well-formed or not. -/
theorem addArea_returns_least_unused_id (s : RegionsRegister L) (hs : ReachableWellFormed s)
    (regs : List L) :
    0 ≤ (s.addArea regs).2 ∧ (s.addArea regs).2 ∉ s.liveIds ∧
      ∀ j : Int, 0 ≤ j → j < (s.addArea regs).2 → j ∈ s.liveIds := by
  have ht := tight_of_reachableWellFormed hs
  obtain ⟨h1, _, h3⟩ := selectId_spec s.lookup_areas_ ht.consistent.lookup_ordered
    ht.consistent.ids_nonneg
  refine ⟨h1, ?_, ?_⟩
  · intro hmem
    obtain ⟨a, ha, hid⟩ := List.mem_map.mp hmem
    exact selectId_not_live ht.consistent a ha hid
  · intro j hj1 hj2
    obtain ⟨e, he, hej⟩ := List.mem_map.mp (h3 j hj1 hj2)
    obtain ⟨a, ha, hae⟩ := ht.lookup_live e he
    exact List.mem_map.mpr ⟨a, ha, by rw [hae, hej]⟩

theorem reachableWellFormed_fixtureFind : ReachableWellFormed fixtureFind :=
  ReachableWellFormed.removeRegion (label "def")
    (ReachableWellFormed.addArea [label "jkl", label "mno", label "pqr"]
      (ReachableWellFormed.addArea [label "def", label "ghi"]
        (ReachableWellFormed.addArea [label "abc"]
          (ReachableWellFormed.addArea [label "abc", label "def"]
            (ReachableWellFormed.fresh false) (by unfold WellFormedArg; decide))
          (by unfold WellFormedArg; decide))
        (by unfold WellFormedArg; decide))
      (by unfold WellFormedArg; decide))

/-- Witness of C1 on the state of the test `FindElements`: ID 0 was freed by
`removeRegion("def")` and `addArea({"mno"})` returns it. -/
theorem addArea_returns_least_unused_id_witness :
    ReachableWellFormed fixtureFind ∧ WellFormedArg fixtureFind [label "mno"] ∧
      (fixtureFind.addArea [label "mno"]).2 = 0 ∧
      0 ≤ (fixtureFind.addArea [label "mno"]).2 ∧
      (fixtureFind.addArea [label "mno"]).2 ∉ fixtureFind.liveIds ∧
      ∀ j : Int, 0 ≤ j → j < (fixtureFind.addArea [label "mno"]).2 →
        j ∈ fixtureFind.liveIds :=
  ⟨reachableWellFormed_fixtureFind, by unfold WellFormedArg; decide, by decide,
    addArea_returns_least_unused_id fixtureFind reachableWellFormed_fixtureFind [label "mno"]⟩

/-! ## Consecutive `addArea` calls on a fresh register -/

theorem selectId_of_initial_segment {V : Type} (m : List (Int × V)) (hm : StdMap.Ordered m)
    (k : Nat) (hkeys : ∀ j : Int, j ∈ m.map Prod.fst ↔ 0 ≤ j ∧ j < k) : selectId m = k := by
  have hpos : ∀ e ∈ m, 0 ≤ e.1 := fun e he =>
    ((hkeys e.1).mp (List.mem_map.mpr ⟨e, he, rfl⟩)).1
  obtain ⟨h1, h2, h3⟩ := selectId_spec m hm hpos
  have hge : (k : Int) ≤ selectId m := by
    by_contra hlt
    obtain ⟨e, he, hek⟩ := List.mem_map.mp ((hkeys (selectId m)).mpr ⟨h1, by omega⟩)
    exact h2 e he hek
  have hle : selectId m ≤ k := by
    by_contra hgt
    have := (hkeys k).mp (h3 k (by omega) (by omega))
    omega
  omega

theorem addAreas_spec (l : List (List L)) (s : RegionsRegister L) (k : Nat)
    (hc : Consistent s)
    (hkeys : ∀ j : Int, j ∈ s.lookup_areas_.map Prod.fst ↔ 0 ≤ j ∧ j < k)
    (hlen : s.areas_.length = k) (hid : s.id_ = k - 1)
    (hfresh : ∀ regs ∈ l, StdMap.find regs s.areas_ = none) (hd : l.Nodup) :
    (addAreas s l).2 = (List.range' k l.length).map Int.ofNat ∧
      (addAreas s l).1.areas_.length = k + l.length ∧
      (addAreas s l).1.id_ = (k + l.length : Nat) - 1 := by
  induction l generalizing s k with
  | nil => simp [addAreas, hlen, hid]
  | cons regs rest ih =>
    have hsel : selectId s.lookup_areas_ = k :=
      selectId_of_initial_segment _ hc.lookup_ordered k hkeys
    have hnone : StdMap.find regs s.areas_ = none := hfresh regs (List.mem_cons_self _ _)
    have hd' := List.nodup_cons.mp hd
    have hstep := ih (s.addArea regs).1 (k + 1) (consistent_addArea hc regs)
      (by
        intro j
        show j ∈ (StdMap.assign (selectId s.lookup_areas_) regs s.lookup_areas_).map Prod.fst
          ↔ _
        rw [← StdMap.find_isSome_iff, hsel]
        simp only [StdMap.find_assign]
        by_cases hj : j = k
        · simp [hj]
        · simp only [hj, if_false, StdMap.find_isSome_iff, hkeys]
          push_cast
          omega)
      (by
        show (StdMap.assign regs (selectId s.lookup_areas_) s.areas_).length = k + 1
        rw [StdMap.length_assign_of_none _ hnone, hlen])
      (by
        show s.id_ + 1 = ((k + 1 : Nat) : Int) - 1
        rw [hid]
        push_cast
        ring)
      (by
        intro r hr
        show StdMap.find r (StdMap.assign regs (selectId s.lookup_areas_) s.areas_) = none
        rw [StdMap.find_assign]
        have hne : r ≠ regs := fun hh => hd'.1 (hh ▸ hr)
        simp only [hne, if_false]
        exact hfresh r (List.mem_cons_of_mem _ hr))
      hd'.2
    obtain ⟨h1, h2, h3⟩ := hstep
    refine ⟨?_, ?_, ?_⟩
    · show (s.addArea regs).2 :: (addAreas (s.addArea regs).1 rest).2 = _
      rw [h1]
      show selectId s.lookup_areas_ :: _ = _
      rw [hsel]
      simp [List.range'_succ]
    · show (addAreas (s.addArea regs).1 rest).1.areas_.length = _
      rw [h2]
      simp only [List.length_cons]
      omega
    · show (addAreas (s.addArea regs).1 rest).1.id_ = _
      rw [h3]
      simp only [List.length_cons]
      congr 2
      omega

/-- C2: `addArea` on `n` pairwise distinct label lists, in order, on a fresh
register returns the IDs `0, 1, ..., n-1` in that order; afterwards
`getRegionsNumber()` is `n` and `getId()` is `n-1`. (For `n = 0` too: no ID is
returned and `getId()` is `-1`.) -/
theorem addAreas_fresh (threaded : Bool) (l : List (List L)) (hd : l.Nodup) :
    (addAreas (new threaded) l).2 = (List.range l.length).map Int.ofNat ∧
      (addAreas (new threaded) l).1.getRegionsNumber = l.length ∧
      (addAreas (new threaded) l).1.getId = (l.length : Int) - 1 := by
  obtain ⟨h1, h2, h3⟩ := addAreas_spec l (new threaded) 0 (consistent_new threaded)
    (by intro j; simp [new]) (by simp [new]) (by simp [new])
    (by intro regs _; simp [new, StdMap.find]) hd
  refine ⟨?_, ?_, ?_⟩
  · rw [h1, List.range_eq_range']
  · simp [getRegionsNumber, h2]
  · simp [getId, h3]

/-- Witness of C2: the four calls of the test `AddElements`. -/
theorem addAreas_fresh_witness :
    1 ≤ [[label "abc", label "def"], [label "abc"], [label "def", label "ghi"],
        [label "jkl", label "mno", label "pqr"]].length ∧
      [[label "abc", label "def"], [label "abc"], [label "def", label "ghi"],
        [label "jkl", label "mno", label "pqr"]].Nodup ∧
      (addAreas (new false) [[label "abc", label "def"], [label "abc"],
        [label "def", label "ghi"], [label "jkl", label "mno", label "pqr"]]).2
        = [0, 1, 2, 3] ∧
      (addAreas (new false) [[label "abc", label "def"], [label "abc"],
        [label "def", label "ghi"], [label "jkl", label "mno", label "pqr"]]).1.getRegionsNumber
        = 4 ∧
      (addAreas (new false) [[label "abc", label "def"], [label "abc"],
        [label "def", label "ghi"], [label "jkl", label "mno", label "pqr"]]).1.getId = 3 :=
  ⟨by decide, by decide,
    addAreas_fresh false [[label "abc", label "def"], [label "abc"],
      [label "def", label "ghi"], [label "jkl", label "mno", label "pqr"]]
      (by decide)⟩

theorem liveIds_nodup {s : RegionsRegister L} (h : Consistent s) : s.liveIds.Nodup := by
  have hkeys : (s.areas_.map Prod.fst).Nodup := List.Sorted.nodup h.areas_ordered
  have hent : s.areas_.Nodup := List.Nodup.of_map _ hkeys
  exact List.Nodup.map_on (fun a ha b hb hab => h.ids_injective a ha b hb hab) hent

theorem reachable_fixtureMisuse : Reachable fixtureMisuse :=
  reachable_run (Reachable.fresh false) _

/-- C9: in every reachable state, whatever the arguments of the calls were
(a live area added again, an empty list, a list with a repeated label), two live
areas with the same ID are the same area: the areas map is injective, and the
list of live IDs has no repetition. -/
theorem live_ids_unique (s : RegionsRegister L) (hs : Reachable s) :
    (∀ (a b : List L) (id : Int), StdMap.find a s.areas_ = some id →
      StdMap.find b s.areas_ = some id → a = b) ∧ s.liveIds.Nodup := by
  have hc := consistent_of_reachable hs
  refine ⟨?_, liveIds_nodup hc⟩
  intro a b id ha hb
  exact congrArg Prod.fst
    (hc.ids_injective (a, id) (StdMap.mem_of_find ha) (b, id) (StdMap.mem_of_find hb) rfl)

/-- Witness of C9 on a register that was used outside the contract of
`addArea`. -/
theorem live_ids_unique_witness :
    Reachable fixtureMisuse ∧
      (∀ (a b : List (List Char)) (id : Int), StdMap.find a fixtureMisuse.areas_ = some id →
        StdMap.find b fixtureMisuse.areas_ = some id → a = b) ∧
      fixtureMisuse.liveIds.Nodup :=
  ⟨reachable_fixtureMisuse, live_ids_unique fixtureMisuse reachable_fixtureMisuse⟩

/-- C8, the behaviour of the code where the claim fails. After
`addArea({"abc"})` and `clear()` the areas map is empty while `lookup_areas_`
still maps ID 0 to `{"abc"}`: `clear` does not touch `lookup_areas_`. After
`addArea({"abc", "def"})` and `removeRegion("abc")` the areas map holds
`{"def"}` with ID 0 while `lookup_areas_` maps ID 0 to `{"abc", "def"}`: the
scan keeps the ID for the residual without updating `lookup_areas_`. -/
theorem lookup_areas_out_of_step :
    fixtureCleared.areas_ = [] ∧
      StdMap.find 0 fixtureCleared.lookup_areas_ = some [label "abc"] ∧
      fixtureResidual.areas_ = [([label "def"], 0)] ∧
      StdMap.find 0 fixtureResidual.lookup_areas_ = some [label "abc", label "def"] := by
  decide

/-- C10, the behaviour of the code where the claim fails. After
`addArea({"abc"})` and `clear()` the areas map is empty, `getRegionsNumber()` is
0 and `getId()` is -1, but `lookup_areas_` still holds ID 0, and the next
`addArea` returns 1 instead of 0. -/
theorem clear_keeps_lookup_areas :
    fixtureCleared.areas_ = [] ∧ fixtureCleared.getRegionsNumber = 0 ∧
      fixtureCleared.getId = -1 ∧
      fixtureCleared.lookup_areas_ = [(0, [label "abc"])] ∧
      (fixtureCleared.addArea [label "def"]).2 = 1 := by
  decide

/-! ## Claims on list comparison, sentinels, scenarios and the entity-type store -/

theorem reachable_fixturePair : Reachable fixturePair :=
  reachable_run (Reachable.fresh false) _

/-- C11, counterexample: after `addArea({"abc", "def"})` the area
`{"abc", "def"}` is live with ID 0, the list `{"def", "abc"}` holds the same
labels, and `findRegions({"def", "abc"})` is `-1`, not 0. -/
theorem findRegions_permutation_counterexample :
    ([label "abc", label "def"], (0 : Int)) ∈ fixturePair.areas_ ∧
      List.Perm [label "def", label "abc"] [label "abc", label "def"] ∧
      fixturePair.findRegions [label "def", label "abc"] = -1 ∧
      ¬ fixturePair.findRegions [label "def", label "abc"] = 0 :=
  ⟨by decide, List.Perm.swap _ _ _, by decide, by decide⟩

/-- C11, amended: areas are compared as label lists, element by element. In
every reachable state, for a live area `a` with ID `id`, `findRegions(p)` is
`id` exactly when `p` is the list `a`; and `addArea(p)` for any other list `p`
(a permutation of `a` included) registers `p` under an ID of its own and leaves
`a` with its ID. -/
theorem findRegions_compares_lists (s : RegionsRegister L) (hs : Reachable s) (a : List L)
    (id : Int) (hlive : (a, id) ∈ s.areas_) :
    (∀ p : List L, s.findRegions p = id ↔ p = a) ∧
      (∀ p : List L, p ≠ a →
        (s.addArea p).1.findRegions a = id ∧
          (s.addArea p).1.findRegions p = (s.addArea p).2 ∧ (s.addArea p).2 ≠ id) := by
  have hc := consistent_of_reachable hs
  refine ⟨?_, ?_⟩
  · intro p
    constructor
    · intro hp
      have hne : id ≠ -1 := live_id_ne_neg_one hc hlive
      have hf := find_of_findRegionsIn_ne hp hne
      exact congrArg Prod.fst (hc.ids_injective _ (StdMap.mem_of_find hf) _ hlive rfl)
    · intro hp
      rw [hp]
      exact findRegions_of_mem hc hlive
  · intro p hp
    have hfa : StdMap.find a s.areas_ = some id := StdMap.find_of_mem hc.areas_ordered hlive
    refine ⟨?_, ?_, ?_⟩
    · apply findRegionsIn_of_find_some
      show StdMap.find a (StdMap.assign p (selectId s.lookup_areas_) s.areas_) = some id
      rw [StdMap.find_assign, if_neg (Ne.symm hp), hfa]
    · apply findRegionsIn_of_find_some
      show StdMap.find p (StdMap.assign p (selectId s.lookup_areas_) s.areas_) = some _
      rw [StdMap.find_assign, if_pos rfl]
      rfl
    · exact fun h => selectId_not_live hc _ hlive h.symm

/-- Witness of the amended C11 on the register with the one area
`{"abc", "def"}`. -/
theorem findRegions_compares_lists_witness :
    Reachable fixturePair ∧ ([label "abc", label "def"], (0 : Int)) ∈ fixturePair.areas_ ∧
      (∀ p : List (List Char), fixturePair.findRegions p = 0 ↔ p = [label "abc", label "def"]) ∧
      (∀ p : List (List Char), p ≠ [label "abc", label "def"] →
        (fixturePair.addArea p).1.findRegions [label "abc", label "def"] = 0 ∧
          (fixturePair.addArea p).1.findRegions p = (fixturePair.addArea p).2 ∧
          (fixturePair.addArea p).2 ≠ 0) :=
  ⟨reachable_fixturePair, by decide,
    findRegions_compares_lists fixturePair reachable_fixturePair
      [label "abc", label "def"] 0 (by decide)⟩

/-- C13, counterexample: in the scenario of the claim `findRegions({"abc"})`
after the removal is 0 (the ID `{"abc"}` was registered with), so the
conjunction of the claim, which has `findRegions({"abc"}) = 1`, is false. -/
theorem removal_scenario_counterexample :
    ¬ ((fixture.removeRegion (label "def")).2 = [(1, 0)] ∧
      (fixture.removeRegion (label "def")).1.getRegionsNumber = 3 ∧
      (fixture.removeRegion (label "def")).1.findRegions [label "abc", label "def"] = -1 ∧
      (fixture.removeRegion (label "def")).1.findRegions [label "abc"] = 1 ∧
      (fixture.removeRegion (label "def")).1.findRegionsById 1 = [] ∧
      (fixture.removeRegion (label "def")).1.findRegionsById 2 = [label "ghi"]) := by
  decide

/-- C13, amended: a fresh register assigns the IDs 0, 1, 2, 3 to `{"abc"}`,
`{"abc", "def"}`, `{"def", "ghi"}`, `{"jkl", "mno", "pqr"}`; then
`removeRegion("def")` returns exactly `{1 -> 0}`, and afterwards
`getRegionsNumber()` is 3, `findRegions({"abc", "def"})` is `-1`,
`findRegions({"abc"})` is 0, `findRegionsById(1)` is empty and
`findRegionsById(2)` is `{"ghi"}`. -/
theorem removal_scenario :
    (addAreas (new false) [[label "abc"], [label "abc", label "def"],
        [label "def", label "ghi"], [label "jkl", label "mno", label "pqr"]]).2
        = [0, 1, 2, 3] ∧
      (addAreas (new false) [[label "abc"], [label "abc", label "def"],
        [label "def", label "ghi"], [label "jkl", label "mno", label "pqr"]]).1 = fixture ∧
      (fixture.removeRegion (label "def")).2 = [(1, 0)] ∧
      (fixture.removeRegion (label "def")).1.getRegionsNumber = 3 ∧
      (fixture.removeRegion (label "def")).1.findRegions [label "abc", label "def"] = -1 ∧
      (fixture.removeRegion (label "def")).1.findRegions [label "abc"] = 0 ∧
      (fixture.removeRegion (label "def")).1.findRegionsById 1 = [] ∧
      (fixture.removeRegion (label "def")).1.findRegionsById 2 = [label "ghi"] :=
  ⟨by decide, rfl, by decide, by decide, by decide, by decide, by decide, by decide⟩

theorem getEntityType_perform_of_ne (s : RegionsRegister L) (c : Call L) (e : L)
    (h : ∀ t, c ≠ Call.addEntityType e t) :
    (s.perform c).getEntityType e = s.getEntityType e := by
  cases c with
  | addArea regs => rfl
  | removeRegion reg => rfl
  | clear => rfl
  | addEntityType e' t =>
    have hne : e ≠ e' := fun hh => h t (by rw [hh])
    simp [perform, addEntityType, getEntityType, StdMap.find_assign, hne]

theorem getEntityType_run_of_not_written (calls : List (Call L)) (s : RegionsRegister L)
    (e : L) (h : ∀ t, Call.addEntityType e t ∉ calls) :
    (s.run calls).getEntityType e = s.getEntityType e := by
  induction calls generalizing s with
  | nil => rfl
  | cons c calls ih =>
    show ((s.perform c).run calls).getEntityType e = _
    rw [ih (s.perform c) (fun t ht => h t (List.mem_cons_of_mem _ ht))]
    exact getEntityType_perform_of_ne s c e (fun t hc => h t (by rw [hc]; exact List.mem_cons_self _ _))

/-- C16: the entity-type store is a last-write-wins map independent of the
areas. After `addEntityType(e, t)`, `getEntityType(e)` is `t` and the type of
every other entity is unchanged; `getEntityType` is the empty string for an
entity that no call has written; `addEntityType` leaves the areas map, the
reverse index and the counter unchanged; `addArea`, `removeRegion` and `clear`
leave `getEntityType` unchanged. -/
theorem entity_types_independent (s : RegionsRegister L) (e : L) (t : String) :
    (s.addEntityType e t).getEntityType e = t ∧
      (∀ e' : L, e' ≠ e → (s.addEntityType e t).getEntityType e' = s.getEntityType e') ∧
      (∀ (threaded : Bool) (calls : List (Call L)),
        (∀ t' : String, Call.addEntityType e t' ∉ calls) →
        ((new threaded).run calls).getEntityType e = "") ∧
      ((s.addEntityType e t).areas_ = s.areas_ ∧
        (s.addEntityType e t).lookup_areas_ = s.lookup_areas_ ∧
        (s.addEntityType e t).id_ = s.id_) ∧
      (∀ (regs : List L) (e' : L), (s.addArea regs).1.getEntityType e' = s.getEntityType e') ∧
      (∀ (reg : L) (e' : L), (s.removeRegion reg).1.getEntityType e' = s.getEntityType e') ∧
      (∀ e' : L, s.clear.getEntityType e' = s.getEntityType e') := by
  refine ⟨?_, ?_, ?_, ⟨rfl, rfl, rfl⟩, fun _ _ => rfl, fun _ _ => rfl, fun _ => rfl⟩
  · simp [addEntityType, getEntityType, StdMap.find_assign]
  · intro e' he'
    simp [addEntityType, getEntityType, StdMap.find_assign, he']
  · intro threaded calls h
    rw [getEntityType_run_of_not_written calls _ e h]
    rfl

/-- C17: in every reachable state, a live area `B` with ID `j` that does not
contain `reg` is untouched by `removeRegion(reg)`: afterwards `findRegions(B)`
is `j`, `findRegionsById(j)` is `B`, and `j` is not a key of the returned
remap. (No assumption on duplicate labels is needed.) -/
theorem removeRegion_keeps_unrelated (s : RegionsRegister L) (hs : Reachable s) (reg : L)
    (B : List L) (j : Int) (hlive : (B, j) ∈ s.areas_) (hB : reg ∉ B) :
    (s.removeRegion reg).1.findRegions B = j ∧
      (s.removeRegion reg).1.findRegionsById j = B ∧
      StdMap.find j (s.removeRegion reg).2 = none := by
  have hc := consistent_of_reachable hs
  have hc' := consistent_removeRegion hc reg
  have hfind : StdMap.find B (s.removeRegion reg).1.areas_ = some j := by
    rw [find_removeRegion_areas, if_neg hB, StdMap.find_of_mem hc.areas_ordered hlive]
    rfl
  have hmem := StdMap.mem_of_find hfind
  refine ⟨findRegions_of_mem hc' hmem, findRegionsById_of_mem hc' hmem, ?_⟩
  cases hf : StdMap.find j (s.removeRegion reg).2 with
  | none => rfl
  | some n =>
    exfalso
    obtain ⟨area, h1, h2, _⟩ := (mem_remap_iff hc reg j n).mp (StdMap.mem_of_find hf)
    have : area = B := congrArg Prod.fst (hc.ids_injective _ h1 _ hlive rfl)
    exact hB (this ▸ h2)

/-- Witness of C17 on the test fixture: removing `"def"` leaves the area
`{"jkl", "mno", "pqr"}` with ID 3. -/
theorem removeRegion_keeps_unrelated_witness :
    Reachable fixture ∧
      ([label "jkl", label "mno", label "pqr"], (3 : Int)) ∈ fixture.areas_ ∧
      label "def" ∉ [label "jkl", label "mno", label "pqr"] ∧
      (fixture.removeRegion (label "def")).1.findRegions
        [label "jkl", label "mno", label "pqr"] = 3 ∧
      (fixture.removeRegion (label "def")).1.findRegionsById 3
        = [label "jkl", label "mno", label "pqr"] ∧
      StdMap.find 3 (fixture.removeRegion (label "def")).2 = none :=
  ⟨reachable_fixture, by decide, by decide,
    removeRegion_keeps_unrelated fixture reachable_fixture (label "def")
      [label "jkl", label "mno", label "pqr"] 3 (by decide) (by decide)⟩

theorem reachable_of_reachableNonEmpty {s : RegionsRegister L} (h : ReachableNonEmpty s) :
    Reachable s := by
  induction h with
  | fresh threaded => exact Reachable.fresh threaded
  | addArea regs _ _ ih => exact Reachable.call (Call.addArea regs) ih
  | removeRegion reg _ ih => exact Reachable.call (Call.removeRegion reg) ih
  | clear _ ih => exact Reachable.call Call.clear ih

theorem areas_ne_nil_of_reachableNonEmpty {s : RegionsRegister L} (h : ReachableNonEmpty s) :
    ∀ a ∈ s.areas_, a.1 ≠ [] := by
  induction h with
  | fresh threaded => simp [new]
  | addArea regs _ hregs ih =>
    intro a ha
    rcases StdMap.mem_assign ha with rfl | ha
    · exact hregs
    · exact ih a ha
  | removeRegion reg _ ih =>
    intro e he
    obtain ⟨a, ha, _, horigin⟩ := removeRegion_entry_origin _ reg e he
    rcases horigin with ⟨h1, _⟩ | ⟨_, _, h3, _⟩
    · rw [← h1]; exact ih a ha
    · exact h3
  | clear _ _ => simp [clear]

/-- C12: in every state reached from a fresh register by `addArea` calls with
non-empty label lists and by `removeRegion` and `clear` calls, every live ID is
non-negative; `findRegions(regs)` is `-1` exactly when `regs` is not a live
area; and `findRegionsById(id)` is the empty list exactly when `id` is not the
ID of a live area. -/
theorem sentinels_unambiguous (s : RegionsRegister L) (hs : ReachableNonEmpty s) :
    (∀ a ∈ s.areas_, 0 ≤ a.2) ∧
      (∀ regs : List L, s.findRegions regs = -1 ↔ StdMap.find regs s.areas_ = none) ∧
      (∀ id : Int, s.findRegionsById id = [] ↔ ∀ a ∈ s.areas_, a.2 ≠ id) := by
  have hc := consistent_of_reachable (reachable_of_reachableNonEmpty hs)
  refine ⟨?_, ?_, ?_⟩
  · intro a ha
    obtain ⟨r, hr⟩ := hc.ids_indexed a ha
    exact hc.ids_nonneg _ (StdMap.mem_of_find hr)
  · intro regs
    exact ⟨find_eq_none_of_findRegionsIn hc, findRegionsIn_of_find_none⟩
  · intro id
    constructor
    · intro hnil a ha hid
      have hmem : (a.1, id) ∈ s.areas_ := by rw [← hid]; exact ha
      have hfound := findRegionsById_of_mem hc hmem
      rw [hnil] at hfound
      exact areas_ne_nil_of_reachableNonEmpty hs a ha hfound.symm
    · intro hno
      unfold findRegionsById
      have : s.areas_.find? (fun elem => elem.2 = id) = none := by
        rw [List.find?_eq_none]
        intro a ha
        simpa using hno a ha
      rw [this]

theorem reachableNonEmpty_fixture : ReachableNonEmpty fixture :=
  ReachableNonEmpty.addArea [label "jkl", label "mno", label "pqr"]
    (ReachableNonEmpty.addArea [label "def", label "ghi"]
      (ReachableNonEmpty.addArea [label "abc", label "def"]
        (ReachableNonEmpty.addArea [label "abc"] (ReachableNonEmpty.fresh false) (by decide))
        (by decide))
      (by decide))
    (by decide)

/-- Witness of C12 on the test fixture. -/
theorem sentinels_unambiguous_witness :
    ReachableNonEmpty fixture ∧ (∀ a ∈ fixture.areas_, 0 ≤ a.2) ∧
      (∀ regs : List (List Char),
        fixture.findRegions regs = -1 ↔ StdMap.find regs fixture.areas_ = none) ∧
      (∀ id : Int, fixture.findRegionsById id = [] ↔ ∀ a ∈ fixture.areas_, a.2 ≠ id) :=
  ⟨reachableNonEmpty_fixture, sentinels_unambiguous fixture reachableNonEmpty_fixture⟩

/-- C18: in a reachable state whose live areas are duplicate-free label lists,
every entry `(old, new)` of the remap returned by `removeRegion(reg)` has
`old` different from `new`, `old` is not the ID of a live area after the call,
`new` is the ID of a live area after the call, and `new` is not a key of the
remap. -/
theorem remap_one_pass (s : RegionsRegister L) (hs : Reachable s)
    (hdup : ∀ area ∈ s.areas_, area.1.Nodup) (reg : L) (old new : Int)
    (hentry : (old, new) ∈ (s.removeRegion reg).2) :
    old ≠ new ∧ (∀ a ∈ (s.removeRegion reg).1.areas_, a.2 ≠ old) ∧
      (∃ a ∈ (s.removeRegion reg).1.areas_, a.2 = new) ∧
      StdMap.find new (s.removeRegion reg).2 = none := by
  have hc := consistent_of_reachable hs
  obtain ⟨A, hA, hreg, hlen, hR⟩ := (mem_remap_iff hc reg old new).mp hentry
  have hnotin : reg ∉ A.erase reg := List.Nodup.not_mem_erase (hdup _ hA)
  have hfR : StdMap.find (A.erase reg) s.areas_ = some new :=
    StdMap.find_of_mem hc.areas_ordered hR
  refine ⟨?_, ?_, ?_, ?_⟩
  · intro heq
    have := hc.ids_injective _ hA _ hR heq
    have hAR : A = A.erase reg := congrArg Prod.fst this
    exact hnotin (hAR ▸ hreg)
  · intro e he hid
    obtain ⟨a, ha, haid, horigin⟩ := removeRegion_entry_origin s reg e he
    have haA : a = (A, old) := hc.ids_injective a ha _ hA (by rw [haid, hid])
    subst haA
    rcases horigin with ⟨_, h2⟩ | ⟨_, h2, _, h4⟩
    · exact h2 hreg
    · simp only at h2
      rw [← h2, findRegionsIn_of_find_some hfR] at h4
      exact live_id_ne_neg_one hc hR h4
  · refine ⟨(A.erase reg, new), StdMap.mem_of_find ?_, rfl⟩
    rw [find_removeRegion_areas, if_neg hnotin, hfR]
    rfl
  · cases hf : StdMap.find new (s.removeRegion reg).2 with
    | none => rfl
    | some n =>
      exfalso
      obtain ⟨B, h1, h2, _⟩ := (mem_remap_iff hc reg new n).mp (StdMap.mem_of_find hf)
      have : B = A.erase reg := congrArg Prod.fst (hc.ids_injective _ h1 _ hR rfl)
      exact hnotin (this ▸ h2)

/-- Witness of C18 on the test fixture: `removeRegion("def")` returns the entry
`1 -> 0`. -/
theorem remap_one_pass_witness :
    Reachable fixture ∧ (∀ area ∈ fixture.areas_, area.1.Nodup) ∧
      ((1 : Int), (0 : Int)) ∈ (fixture.removeRegion (label "def")).2 ∧
      (1 : Int) ≠ 0 ∧ (∀ a ∈ (fixture.removeRegion (label "def")).1.areas_, a.2 ≠ 1) ∧
      (∃ a ∈ (fixture.removeRegion (label "def")).1.areas_, a.2 = 0) ∧
      StdMap.find 0 (fixture.removeRegion (label "def")).2 = none :=
  ⟨reachable_fixture, by decide, by decide,
    remap_one_pass fixture reachable_fixture (by decide) (label "def") 1 0 (by decide)⟩

theorem leaked_addArea_ne {i : Int} {s : RegionsRegister L} (h : Leaked i s) (regs : List L) :
    (s.addArea regs).2 ≠ i := by
  obtain ⟨r, hr⟩ := h.indexed
  exact fun heq =>
    (selectId_spec s.lookup_areas_ h.consistent.lookup_ordered h.consistent.ids_nonneg).2.1 _
      (StdMap.mem_of_find hr) heq.symm

theorem leaked_perform {i : Int} {s : RegionsRegister L} (h : Leaked i s) (c : Call L) :
    Leaked i (s.perform c) := by
  refine ⟨consistent_perform h.consistent c, ?_, ?_⟩
  · obtain ⟨r, hr⟩ := h.indexed
    cases c with
    | addArea regs =>
      show ∃ r, StdMap.find i (StdMap.assign (selectId s.lookup_areas_) regs s.lookup_areas_)
        = some r
      rw [StdMap.find_assign]
      split_ifs
      · exact ⟨regs, rfl⟩
      · exact ⟨r, hr⟩
    | removeRegion reg =>
      show ∃ r, StdMap.find i (s.removeRegion reg).1.lookup_areas_ = some r
      cases hf : StdMap.find i (s.removeRegion reg).1.lookup_areas_ with
      | some r' => exact ⟨r', rfl⟩
      | none =>
        exfalso
        rcases (find_removeRegion_lookup_none s reg i).mp hf with h1 | h1 | h1
        · rw [hr] at h1
          exact Option.noConfusion h1
        · obtain ⟨a, ha, _, _, _, hai⟩ := h1
          exact h.not_live a ha hai
        · obtain ⟨_, _, _, _, h2⟩ := h1
          exact h.not_live _ (StdMap.mem_of_find h2) rfl
    | clear => exact ⟨r, hr⟩
    | addEntityType entity type => exact ⟨r, hr⟩
  · cases c with
    | addArea regs =>
      intro e he
      rcases StdMap.mem_assign he with rfl | he
      · exact leaked_addArea_ne h regs
      · exact h.not_live e he
    | removeRegion reg =>
      intro e he
      obtain ⟨a, ha, haid, _⟩ := removeRegion_entry_origin s reg e he
      rw [← haid]
      exact h.not_live a ha
    | clear => simp [perform, clear]
    | addEntityType entity type => exact h.not_live

theorem leaked_run {i : Int} (calls : List (Call L)) {s : RegionsRegister L} (h : Leaked i s) :
    Leaked i (s.run calls) := by
  induction calls generalizing s with
  | nil => exact h
  | cons c calls ih => exact ih (leaked_perform h c)

theorem leaked_of_readd {s : RegionsRegister L} (hc : Consistent s) {a : List L} {i : Int}
    (hlive : (a, i) ∈ s.areas_) : Leaked i (s.addArea a).1 := by
  have hne : (s.addArea a).2 ≠ i := fun heq => selectId_not_live hc _ hlive heq.symm
  have hc' := consistent_addArea hc a
  refine ⟨hc', ?_, ?_⟩
  · obtain ⟨r, hr⟩ := hc.ids_indexed _ hlive
    show ∃ r, StdMap.find i (StdMap.assign (selectId s.lookup_areas_) a s.lookup_areas_) = some r
    rw [StdMap.find_assign]
    split_ifs
    · exact ⟨a, rfl⟩
    · exact ⟨r, hr⟩
  · intro e he hei
    have hfind : StdMap.find e.1 (s.addArea a).1.areas_ = some e.2 :=
      StdMap.find_of_mem (k := e.1) (v := e.2) hc'.areas_ordered he
    rcases StdMap.mem_assign he with h1 | h1
    · rw [h1] at hei
      exact hne hei
    · have heq : e = (a, i) := hc.ids_injective e h1 _ hlive hei
      rw [heq] at hfind
      have h2 : StdMap.find a (StdMap.assign a (selectId s.lookup_areas_) s.areas_)
          = some i := hfind
      rw [StdMap.find_assign, if_pos rfl] at h2
      exact hne (Option.some.inj h2)

/-- C19: in every reachable state, `addArea(a)` for a live area `a` with ID `i`
returns an ID different from `i`; afterwards `findRegions(a)` is the new ID,
`getRegionsNumber()` is unchanged and `findRegionsById(i)` is empty; and after
any further sequence of calls no `addArea` call returns `i`. -/
theorem readd_leaks_id (s : RegionsRegister L) (hs : Reachable s) (a : List L) (i : Int)
    (hlive : (a, i) ∈ s.areas_) :
    (s.addArea a).2 ≠ i ∧ (s.addArea a).1.findRegions a = (s.addArea a).2 ∧
      (s.addArea a).1.getRegionsNumber = s.getRegionsNumber ∧
      (s.addArea a).1.findRegionsById i = [] ∧
      ∀ (calls : List (Call L)) (regs : List L),
        (((s.addArea a).1.run calls).addArea regs).2 ≠ i := by
  have hc := consistent_of_reachable hs
  have hleak := leaked_of_readd hc hlive
  have hfa : StdMap.find a s.areas_ = some i := StdMap.find_of_mem hc.areas_ordered hlive
  refine ⟨fun heq => selectId_not_live hc _ hlive heq.symm, ?_, ?_, ?_, ?_⟩
  · apply findRegionsIn_of_find_some
    show StdMap.find a (StdMap.assign a (selectId s.lookup_areas_) s.areas_) = some _
    rw [StdMap.find_assign, if_pos rfl]
    rfl
  · show ((StdMap.assign a (selectId s.lookup_areas_) s.areas_).length : Int) = s.areas_.length
    rw [StdMap.length_assign_of_some _ hc.areas_ordered hfa]
  · unfold findRegionsById
    have : (s.addArea a).1.areas_.find? (fun elem => elem.2 = i) = none := by
      rw [List.find?_eq_none]
      intro e he
      simpa using hleak.not_live e he
    rw [this]
  · intro calls regs
    exact leaked_addArea_ne (leaked_run calls hleak) regs

/-- Witness of C19 on the test fixture: `{"abc"}` is live with ID 0. -/
theorem readd_leaks_id_witness :
    Reachable fixture ∧ ([label "abc"], (0 : Int)) ∈ fixture.areas_ ∧
      (fixture.addArea [label "abc"]).2 ≠ 0 ∧
      (fixture.addArea [label "abc"]).1.findRegions [label "abc"]
        = (fixture.addArea [label "abc"]).2 ∧
      (fixture.addArea [label "abc"]).1.getRegionsNumber = fixture.getRegionsNumber ∧
      (fixture.addArea [label "abc"]).1.findRegionsById 0 = [] ∧
      ∀ (calls : List (Call (List Char))) (regs : List (List Char)),
        (((fixture.addArea [label "abc"]).1.run calls).addArea regs).2 ≠ 0 :=
  ⟨reachable_fixture, by decide,
    readd_leaks_id fixture reachable_fixture [label "abc"] 0 (by decide)⟩

/-! ## Coexistent entities and the order of removals -/

theorem mem_insert_fold (x : L) (regs : List L) (acc : List L) :
    x ∈ regs.foldl (fun acc i => if i ∈ acc then acc else acc ++ [i]) acc ↔
      x ∈ acc ∨ x ∈ regs := by
  induction regs generalizing acc with
  | nil => simp
  | cons r regs ih =>
    simp only [List.foldl_cons, ih, List.mem_cons]
    split_ifs with h
    · constructor
      · rintro (h1 | h1)
        · exact Or.inl h1
        · exact Or.inr (Or.inr h1)
      · rintro (h1 | h1 | h1)
        · exact Or.inl h1
        · exact Or.inl (h1 ▸ h)
        · exact Or.inr h1
    · simp only [List.mem_append, List.mem_singleton]
      tauto

theorem mem_coexistent_fold (entity x : L) (areas : List (List L × Int)) (acc : List L) :
    x ∈ areas.foldl
        (fun coexisting region =>
          if entity ∈ region.1 then
            region.1.foldl (fun acc i => if i ∈ acc then acc else acc ++ [i]) coexisting
          else coexisting) acc ↔
      x ∈ acc ∨ ∃ region ∈ areas, entity ∈ region.1 ∧ x ∈ region.1 := by
  induction areas generalizing acc with
  | nil => simp
  | cons a areas ih =>
    simp only [List.foldl_cons, ih, List.mem_cons, exists_eq_or_imp]
    by_cases h : entity ∈ a.1
    · simp only [h, if_true, mem_insert_fold, true_and]
      tauto
    · simp only [h, if_false, false_and, false_or]

/-- C15: the result of `getCoexistentEntities(x)` does not contain `x`, and it
contains a label `y` different from `x` exactly when some live area contains
both `x` and `y`. -/
theorem getCoexistentEntities_spec (s : RegionsRegister L) (x : L) :
    x ∉ s.getCoexistentEntities x ∧
      ∀ y : L, y ≠ x →
        (y ∈ s.getCoexistentEntities x ↔ ∃ area ∈ s.areas_, x ∈ area.1 ∧ y ∈ area.1) := by
  refine ⟨?_, ?_⟩
  · simp [getCoexistentEntities]
  · intro y hy
    simp only [getCoexistentEntities, List.mem_filter, mem_coexistent_fold, List.not_mem_nil,
      false_or, ne_eq, decide_not, Bool.not_eq_eq_eq_not, Bool.not_true, decide_eq_false_iff_not,
      hy, not_false_eq_true, and_true]

theorem getEntries_fold {K V : Type} (areas : List (K × V)) (acc : List K) :
    areas.foldl (fun entries area => entries ++ [area.1]) acc = acc ++ areas.map Prod.fst := by
  induction areas generalizing acc with
  | nil => simp
  | cons a areas ih => simp [ih]

theorem getEntries_eq_map {K : Type} (s : RegionsRegister K) :
    s.getEntries = s.areas_.map Prod.fst := by
  simp [getEntries, getEntries_fold]

/-- Keys of `areas_` after `removeRegion(reg)`, when the areas before the call
are duplicate-free: each area without the label, an area that contained the
label being dropped when nothing is left of it. -/
theorem mem_keys_removeRegion (s : RegionsRegister L) (hord : StdMap.Ordered s.areas_)
    (hdup : ∀ area ∈ s.areas_, area.1.Nodup) (reg : L) (X : List L) :
    X ∈ (s.removeRegion reg).1.areas_.map Prod.fst ↔
      ∃ A ∈ s.areas_.map Prod.fst, X = A.erase reg ∧ (reg ∉ A ∨ X ≠ []) := by
  constructor
  · intro hX
    obtain ⟨e, he, rfl⟩ := List.mem_map.mp hX
    rcases mem_removeRegion_areas s reg e he with ⟨h1, h2⟩ | h1
    · exact ⟨e.1, List.mem_map.mpr ⟨e, h1, rfl⟩, (List.erase_of_not_mem h2).symm, Or.inl h2⟩
    · obtain ⟨a, ha, _, h3, h4, _⟩ := mem_scan_areas_to_add s reg e h1
      exact ⟨a.1, List.mem_map.mpr ⟨a, ha, rfl⟩, h3.symm, Or.inr h4⟩
  · rintro ⟨A, hA, rfl, hcond⟩
    obtain ⟨e, he, rfl⟩ := List.mem_map.mp hA
    rw [← StdMap.find_isSome_iff]
    have hfe : StdMap.find e.1 s.areas_ = some e.2 :=
      StdMap.find_of_mem (k := e.1) (v := e.2) hord he
    by_cases hreg : reg ∈ e.1
    · have hne : e.1.erase reg ≠ [] := by
        rcases hcond with h | h
        · exact absurd hreg h
        · exact h
      have hnotin : reg ∉ e.1.erase reg := List.Nodup.not_mem_erase (hdup e he)
      rw [find_removeRegion_areas, if_neg hnotin]
      by_cases hfr : findRegionsIn s.areas_ (e.1.erase reg) = -1
      · obtain ⟨i, hi⟩ := scan_areas_to_add_complete s.areas_ reg s.areas_
          { areas_to_remove := [], areas_to_add := [], ids_to_update := [],
            lookup_areas_ := s.lookup_areas_, standalone_reg_removed := false }
          e he hreg hne hfr
        have hi' : StdMap.find (e.1.erase reg) (removeRegionScan s reg).areas_to_add = some i := hi
        cases hold : StdMap.find (e.1.erase reg) s.areas_ with
        | none => exact ⟨i, by simp [Option.orElse, hi']⟩
        | some j => exact ⟨j, by simp [Option.orElse]⟩
      · have hself : findRegionsIn s.areas_ (e.1.erase reg)
            = findRegionsIn s.areas_ (e.1.erase reg) := rfl
        have := find_of_findRegionsIn_ne hself hfr
        exact ⟨_, by rw [this]; rfl⟩
    · rw [List.erase_of_not_mem hreg, find_removeRegion_areas, if_neg hreg, hfe]
      exact ⟨e.2, rfl⟩

theorem nodup_areas_removeRegion (s : RegionsRegister L)
    (hdup : ∀ area ∈ s.areas_, area.1.Nodup) (reg : L) :
    ∀ area ∈ (s.removeRegion reg).1.areas_, area.1.Nodup := by
  intro e he
  obtain ⟨a, ha, _, horigin⟩ := removeRegion_entry_origin s reg e he
  rcases horigin with ⟨h1, _⟩ | ⟨_, h2, _⟩
  · rw [← h1]; exact hdup a ha
  · rw [← h2]; exact List.Nodup.erase reg (hdup a ha)

/-- Keys of `areas_` after `removeRegion(a)` followed by `removeRegion(b)`. -/
theorem mem_keys_removeRegion_twice (s : RegionsRegister L) (hord : StdMap.Ordered s.areas_)
    (hdup : ∀ area ∈ s.areas_, area.1.Nodup) (a b : L) (X : List L) :
    X ∈ ((s.removeRegion a).1.removeRegion b).1.areas_.map Prod.fst ↔
      ∃ A ∈ s.areas_.map Prod.fst, X = (A.erase a).erase b ∧ (X ≠ [] ∨ A = []) := by
  rw [mem_keys_removeRegion _ (removeRegion_areas_ordered s a hord)
    (nodup_areas_removeRegion s hdup a) b X]
  constructor
  · rintro ⟨A', hA', hX, hcond⟩
    obtain ⟨A, hA, hA'eq, hcond'⟩ := (mem_keys_removeRegion s hord hdup a A').mp hA'
    refine ⟨A, hA, by rw [hX, hA'eq], ?_⟩
    by_cases hXnil : X = []
    · right
      have hb : b ∉ A' := by
        rcases hcond with h | h
        · exact h
        · exact absurd hXnil h
      have hA'nil : A' = [] := by
        rw [← List.erase_of_not_mem hb, ← hX, hXnil]
      have ha : a ∉ A := by
        rcases hcond' with h | h
        · exact h
        · exact absurd hA'nil h
      rw [← List.erase_of_not_mem ha, ← hA'eq, hA'nil]
    · exact Or.inl hXnil
  · rintro ⟨A, hA, hX, hcond⟩
    refine ⟨A.erase a, ?_, hX, ?_⟩
    · refine (mem_keys_removeRegion s hord hdup a _).mpr ⟨A, hA, rfl, ?_⟩
      rcases hcond with h | h
      · right
        intro hnil
        rw [hnil] at hX
        exact h (by rw [hX]; rfl)
      · left
        rw [h]
        exact List.not_mem_nil a
    · rcases hcond with h | h
      · exact Or.inr h
      · left
        rw [h]
        simp

/-- C20, counterexample: with the empty list as the one live area, the entries
after `removeRegion("abc")` and `removeRegion("def")` are the empty list, which
is not a non-empty list obtained from a live area. -/
theorem removal_order_counterexample :
    AreasAscending fixtureEmpty ∧
      ((fixtureEmpty.removeRegion (label "abc")).1.removeRegion (label "def")).1.getEntries
        = [[]] ∧
      ¬ (∀ X : List (List Char),
        X ∈ ((fixtureEmpty.removeRegion (label "abc")).1.removeRegion (label "def")).1.getEntries
          ↔ (X ≠ [] ∧ ∃ A ∈ fixtureEmpty.getEntries,
              X = residual (residual A (label "abc")) (label "def"))) := by
  refine ⟨by unfold AreasAscending; decide, by decide, ?_⟩
  intro h
  exact ((h []).mp (by decide)).1 rfl

/-- C20, amended: in a state whose areas map is in key order and whose live
areas are duplicate-free label lists, the entries returned by `getEntries()`
after `removeRegion(a)` then `removeRegion(b)` equal those after
`removeRegion(b)` then `removeRegion(a)`. They are exactly the lists obtained by
deleting `a` and `b` from a live area that are non-empty, together with the
empty list when the empty list was itself a live area. -/
theorem removal_order_irrelevant (s : RegionsRegister L) (hord : StdMap.Ordered s.areas_)
    (hdup : ∀ area ∈ s.areas_, area.1.Nodup) (a b : L) :
    ((s.removeRegion a).1.removeRegion b).1.getEntries
        = ((s.removeRegion b).1.removeRegion a).1.getEntries ∧
      ∀ X : List L, X ∈ ((s.removeRegion a).1.removeRegion b).1.getEntries ↔
        ∃ A ∈ s.getEntries, X = residual (residual A a) b ∧ (X ≠ [] ∨ A = []) := by
  have hab := mem_keys_removeRegion_twice s hord hdup a b
  have hba := mem_keys_removeRegion_twice s hord hdup b a
  have hsab : StdMap.Ordered ((s.removeRegion a).1.removeRegion b).1.areas_ :=
    removeRegion_areas_ordered _ b (removeRegion_areas_ordered s a hord)
  have hsba : StdMap.Ordered ((s.removeRegion b).1.removeRegion a).1.areas_ :=
    removeRegion_areas_ordered _ a (removeRegion_areas_ordered s b hord)
  refine ⟨?_, ?_⟩
  · rw [getEntries_eq_map, getEntries_eq_map]
    refine List.eq_of_perm_of_sorted ?_ hsab hsba
    rw [List.perm_ext_iff_of_nodup (List.Sorted.nodup hsab) (List.Sorted.nodup hsba)]
    intro X
    rw [hab X, hba X]
    simp only [List.erase_comm a b]
  · intro X
    rw [getEntries_eq_map, getEntries_eq_map]
    exact hab X

/-- Witness of the amended C20 on the test fixture, labels `"def"` and `"abc"`. -/
theorem removal_order_irrelevant_witness :
    StdMap.Ordered fixture.areas_ ∧ (∀ area ∈ fixture.areas_, area.1.Nodup) ∧
      ((fixture.removeRegion (label "def")).1.removeRegion (label "abc")).1.getEntries
        = ((fixture.removeRegion (label "abc")).1.removeRegion (label "def")).1.getEntries ∧
      ∀ X : List (List Char),
        X ∈ ((fixture.removeRegion (label "def")).1.removeRegion (label "abc")).1.getEntries ↔
          ∃ A ∈ fixture.getEntries,
            X = residual (residual A (label "def")) (label "abc") ∧ (X ≠ [] ∨ A = []) :=
  ⟨by decide, by decide,
    removal_order_irrelevant fixture (by decide) (by decide) (label "def") (label "abc")⟩

/-! ## The number of areas after a removal -/

theorem length_four_way {α : Type} (c r n : α → Bool) (l : List α) :
    l.length = (l.filter (fun e => !c e)).length + (l.filter (fun e => c e && !r e)).length
      + (l.filter (fun e => c e && r e && n e)).length
      + (l.filter (fun e => c e && r e && !n e)).length := by
  induction l with
  | nil => rfl
  | cons a l ih =>
    cases hc : c a <;> cases hr : r a <;> cases hn : n a <;>
      simp [List.filter_cons, hc, hr, hn] <;> omega

theorem nodup_of_ordered {K V : Type} [LinearOrder K] {m : List (K × V)}
    (h : StdMap.Ordered m) : m.Nodup :=
  List.Nodup.of_map _ (List.Sorted.nodup h)

/-- The areas map after `removeRegion`, up to order: the entries without the
label, and for each area with the label whose residual is new, the residual
with the ID of the area. -/
theorem removeRegion_areas_perm {s : RegionsRegister L} (hc : Consistent s)
    (hasc : AreasAscending s) (reg : L) :
    (s.removeRegion reg).1.areas_.Perm
      (s.areas_.filter (fun e => !decide (reg ∈ e.1)) ++
        (s.areas_.filter (fun e => decide (reg ∈ e.1) && decide (e.1.erase reg ≠ []) &&
          decide (findRegionsIn s.areas_ (e.1.erase reg) = -1))).map
          (fun e => (e.1.erase reg, e.2))) := by
  have hnd : s.areas_.Nodup := nodup_of_ordered hc.areas_ordered
  rw [List.perm_ext_iff_of_nodup
    (nodup_of_ordered (removeRegion_areas_ordered s reg hc.areas_ordered))]
  · intro e
    simp only [List.mem_append, List.mem_filter, List.mem_map, Bool.and_eq_true,
      Bool.not_eq_true', decide_eq_true_eq, decide_eq_false_iff_not]
    constructor
    · intro he
      rcases mem_removeRegion_areas s reg e he with ⟨h1, h2⟩ | h1
      · exact Or.inl ⟨h1, h2⟩
      · obtain ⟨a, ha, h2, h3, h4, h5, h6⟩ := mem_scan_areas_to_add s reg e h1
        refine Or.inr ⟨a, ⟨ha, ⟨h2, ?_⟩, ?_⟩, Prod.ext h3 h6⟩
        · rw [h3]; exact h4
        · rw [h3]; exact h5
    · rintro (⟨h1, h2⟩ | ⟨a, ⟨ha, ⟨h2, h3⟩, h4⟩, rfl⟩)
      · apply StdMap.mem_of_find (k := e.1) (v := e.2)
        rw [find_removeRegion_areas, if_neg h2,
          StdMap.find_of_mem (k := e.1) (v := e.2) hc.areas_ordered h1]
        rfl
      · exact StdMap.mem_of_find
          (find_new_residual hc hasc reg ha h2 h3 (find_eq_none_of_findRegionsIn hc h4))
  · refine List.Nodup.append (hnd.filter _) ?_ ?_
    · refine List.Nodup.map_on ?_ (hnd.filter _)
      intro x hx y hy hxy
      exact hc.ids_injective x (List.mem_filter.mp hx).1 y (List.mem_filter.mp hy).1
        (Prod.mk.inj hxy).2
    · intro x hx1 hx2
      obtain ⟨a, ha, rfl⟩ := List.mem_map.mp hx2
      simp only [List.mem_filter, Bool.and_eq_true, Bool.not_eq_true', decide_eq_true_eq,
        decide_eq_false_iff_not] at hx1 ha
      have : (a.1.erase reg, a.2) = a := hc.ids_injective _ hx1.1 a ha.1 rfl
      have hkey : a.1.erase reg = a.1 := congrArg Prod.fst this
      exact hx1.2 (by rw [hkey]; exact ha.2.1.1)

/-- The remap returned by `removeRegion`, up to order: one entry for each area
with the label whose residual was live. -/
theorem removeRegion_remap_perm {s : RegionsRegister L} (hc : Consistent s) (reg : L) :
    (s.removeRegion reg).2.Perm
      ((s.areas_.filter (fun e => decide (reg ∈ e.1) && decide (e.1.erase reg ≠ []) &&
          !decide (findRegionsIn s.areas_ (e.1.erase reg) = -1))).map
          (fun e => (e.2, findRegionsIn s.areas_ (e.1.erase reg)))) := by
  have hnd : s.areas_.Nodup := nodup_of_ordered hc.areas_ordered
  rw [List.perm_ext_iff_of_nodup (nodup_of_ordered (removeRegion_remap_ordered s reg))]
  · intro e
    simp only [List.mem_filter, List.mem_map, Bool.and_eq_true, Bool.not_eq_true',
      decide_eq_true_eq, decide_eq_false_iff_not]
    constructor
    · intro he
      obtain ⟨a, ha, h1, h2, h3, h4, h5⟩ := mem_removeRegion_remap s reg e he
      refine ⟨a, ⟨ha, ⟨h1, h2⟩, ?_⟩, Prod.ext h5 h3⟩
      rw [h3]; exact h4
    · rintro ⟨a, ⟨ha, ⟨h1, h2⟩, h3⟩, rfl⟩
      obtain ⟨n, hn⟩ := scan_ids_to_update_complete s.areas_ reg s.areas_
        { areas_to_remove := [], areas_to_add := [], ids_to_update := [],
          lookup_areas_ := s.lookup_areas_, standalone_reg_removed := false }
        a ha h1 h2 h3
      have hmem : (a.2, n) ∈ (s.removeRegion reg).2 := StdMap.mem_of_find hn
      obtain ⟨a', ha', _, _, h6, _, h8⟩ := mem_removeRegion_remap s reg _ hmem
      simp only at h6 h8
      have haa : a' = a := hc.ids_injective a' ha' a ha h8
      rw [haa] at h6
      rw [h6]
      exact hmem
  · refine List.Nodup.map_on ?_ (hnd.filter _)
    intro x hx y hy hxy
    exact hc.ids_injective x (List.mem_filter.mp hx).1 y (List.mem_filter.mp hy).1
      (Prod.mk.inj hxy).1

/-- The number of entries that the scan of `removeRegion` meets as the
standalone area: one when `{reg}` is live, none otherwise. -/
theorem length_standalone {m : List (List L × Int)} (hm : StdMap.Ordered m) (reg : L) :
    (m.filter (fun e => decide (reg ∈ e.1) && !decide (e.1.erase reg ≠ []))).length =
      if (StdMap.find [reg] m).isSome then 1 else 0 := by
  have hnd : (m.filter
      (fun e => decide (reg ∈ e.1) && !decide (e.1.erase reg ≠ []))).Nodup :=
    (nodup_of_ordered hm).filter _
  have hmem : ∀ e, e ∈ m.filter
      (fun e => decide (reg ∈ e.1) && !decide (e.1.erase reg ≠ [])) ↔
      e ∈ m ∧ e.1 = [reg] := by
    intro e
    simp only [List.mem_filter, Bool.and_eq_true, Bool.not_eq_true', decide_eq_true_eq,
      decide_eq_false_iff_not, ne_eq, not_not]
    constructor
    · rintro ⟨h1, h2, h3⟩
      exact ⟨h1, eq_singleton_of_erase_eq_nil h2 h3⟩
    · rintro ⟨h1, h2⟩
      refine ⟨h1, ?_, ?_⟩
      · rw [h2]; exact List.mem_singleton_self reg
      · rw [h2]; simp
  cases hf : StdMap.find [reg] m with
  | none =>
    have : m.filter (fun e => decide (reg ∈ e.1) && !decide (e.1.erase reg ≠ [])) = [] := by
      rw [List.eq_nil_iff_forall_not_mem]
      intro e he
      obtain ⟨h1, h2⟩ := (hmem e).mp he
      exact (StdMap.find_eq_none_iff [reg] m).mp hf e h1 h2
    rw [this]
    rfl
  | some id =>
    have hperm : (m.filter
        (fun e => decide (reg ∈ e.1) && !decide (e.1.erase reg ≠ []))).Perm [([reg], id)] := by
      rw [List.perm_ext_iff_of_nodup hnd (List.nodup_singleton _)]
      intro e
      rw [hmem e, List.mem_singleton]
      constructor
      · rintro ⟨h1, h2⟩
        have := StdMap.find_of_mem (k := e.1) (v := e.2) hm h1
        rw [h2, hf] at this
        exact Prod.ext h2 (Option.some.inj this).symm
      · rintro rfl
        exact ⟨StdMap.mem_of_find hf, rfl⟩
    rw [hperm.length_eq]
    rfl

/-- C14: in a reachable state whose live areas are strictly ascending label
lists, `getRegionsNumber()` after `removeRegion(reg)` is `getRegionsNumber()`
before the call, minus the number of entries of the returned remap, minus 1
when the standalone area `{reg}` was live before the call. -/
theorem regions_number_after_removal (s : RegionsRegister L) (hs : Reachable s)
    (hasc : AreasAscending s) (reg : L) :
    (s.removeRegion reg).1.getRegionsNumber =
      s.getRegionsNumber - ((s.removeRegion reg).2.length : Int)
        - (if (StdMap.find [reg] s.areas_).isSome then 1 else 0) := by
  have hc := consistent_of_reachable hs
  have h1 := (removeRegion_areas_perm hc hasc reg).length_eq
  have h2 := (removeRegion_remap_perm hc reg).length_eq
  have h3 := length_standalone hc.areas_ordered reg
  have h4 := length_four_way (fun e : List L × Int => decide (reg ∈ e.1))
    (fun e => decide (e.1.erase reg ≠ []))
    (fun e => decide (findRegionsIn s.areas_ (e.1.erase reg) = -1)) s.areas_
  rw [List.length_append, List.length_map] at h1
  rw [List.length_map] at h2
  simp only [getRegionsNumber]
  rw [h1, h2]
  split_ifs with hlive
  · rw [if_pos hlive] at h3
    omega
  · rw [if_neg hlive] at h3
    omega

/-- Witness of C14 on the test fixture: four areas, `removeRegion("def")`
returns one entry, `{"def"}` was not live, three areas are left. -/
theorem regions_number_after_removal_witness :
    Reachable fixture ∧ AreasAscending fixture ∧
      (fixture.removeRegion (label "def")).1.getRegionsNumber = 3 ∧
      (fixture.removeRegion (label "def")).1.getRegionsNumber =
        fixture.getRegionsNumber - ((fixture.removeRegion (label "def")).2.length : Int)
          - (if (StdMap.find [label "def"] fixture.areas_).isSome then 1 else 0) :=
  ⟨reachable_fixture, by unfold AreasAscending; decide, by decide,
    regions_number_after_removal fixture reachable_fixture
      (by unfold AreasAscending; decide) (label "def")⟩

end RegionsRegister

end Remap
